import Mathlib

/-!
# Verification of the tree-splicer mutation engine

A shallow embedding of the core of the `tree-splicer` grammar-aware fuzzer
(crates/tree-splicer/src/splice.rs and node_types.rs), together with theorems
settling the specification claims about it.

Modelling conventions:
* Byte buffers (`Vec<u8>`, `&[u8]`) are `List Nat`.
* `HashMap`/`HashSet` become association lists / lists with explicit
  iteration order; where Rust's iteration order is unspecified, the order is
  either a parameter of the embedded function or fixed to insertion order.
* The seeded `StdRng` stream (external crate `rand`) is modelled as a
  pre-drawn stream of naturals: `random_range(lo..hi)` consumes the head.
  The real `StdRng` is one instance of such a stream per seed.
* The external tree-sitter parser and the `tree_sitter_edit::render`
  primitive are parameters (`Externals`); a concrete render implementation
  modelled from the spec is provided for concrete runs.
* Fallible or potentially diverging code is fueled and returns `Option`.
-/

set_option autoImplicit false

abbrev Bytes := List Nat

/-- `bytes[s..e]` -/
def sliceOf (text : Bytes) (s e : Nat) : Bytes :=
  (text.drop s).take (e - s)

/-- First-match lookup in an association list (models `HashMap::get`). -/
def assocFind {α : Type} (m : List (String × α)) (k : String) : Option α :=
  match m with
  | [] => none
  | (k', v) :: rest => if k' = k then some v else assocFind rest k

/-- Key list of an association list (models `HashMap::keys`). -/
def keysOfList {α : Type} (m : List (String × α)) : List String :=
  m.map Prod.fst

/-- Lookup by `Nat` key (models `HashMap<usize, _>::get`, used for edits). -/
def assocFindNat {α : Type} (m : List (Nat × α)) (k : Nat) : Option α :=
  match m with
  | [] => none
  | (k', v) :: rest => if k' = k then some v else assocFindNat rest k

/-- Insert-or-overwrite by `Nat` key (models `HashMap::insert` on edits). -/
def assocInsertNat {α : Type} (m : List (Nat × α)) (k : Nat) (v : α) :
    List (Nat × α) :=
  match m with
  | [] => [(k, v)]
  | (k', v') :: rest =>
    if k' = k then (k, v) :: rest else (k', v') :: assocInsertNat rest k v

/-! ## The random-number stream

`StdRng` is external; a run of the engine consumes a deterministic stream of
draws. `random_range(lo..hi)` yields a value in `[lo, hi)` from the head of
the stream. An exhausted stream keeps yielding `lo`. -/

abbrev Rng := List Nat

/-- Models `rng.random_range(lo..hi)` (on a nonempty range). -/
def randomRange (rng : Rng) (lo hi : Nat) : Nat × Rng :=
  if hi ≤ lo then (lo, rng)
  else (lo + rng.headD 0 % (hi - lo), rng.tail)

/-- Models `slice::choose(rng)` from the `rand` crate: uniform index draw. -/
def chooseL {α : Type} (rng : Rng) (l : List α) : Option (α × Rng) :=
  match l with
  | [] => none
  | c :: rest =>
    let (i, rng') := randomRange rng 0 (c :: rest).length
    some ((c :: rest).getD i c, rng')

/-! ## Concrete syntax trees

Trees come from the external tree-sitter parser. A node records its id, kind,
named flag and byte range; `fieldNames[i]` models `field_name_for_child(i)`
for the i-th child. -/

inductive TSNode : Type where
  | mk (id : Nat) (kind : String) (named : Bool) (startB endB : Nat)
      (fieldNames : List (Option String)) (children : List TSNode) : TSNode
deriving Repr

def TSNode.id : TSNode → Nat
  | .mk i _ _ _ _ _ _ => i

def TSNode.kind : TSNode → String
  | .mk _ k _ _ _ _ _ => k

def TSNode.named : TSNode → Bool
  | .mk _ _ nm _ _ _ _ => nm

def TSNode.startB : TSNode → Nat
  | .mk _ _ _ s _ _ _ => s

def TSNode.endB : TSNode → Nat
  | .mk _ _ _ _ e _ _ => e

def TSNode.fieldNames : TSNode → List (Option String)
  | .mk _ _ _ _ _ fns _ => fns

def TSNode.children : TSNode → List TSNode
  | .mk _ _ _ _ _ _ cs => cs

/-- Models `node.child_count()`. -/
def TSNode.childCount (n : TSNode) : Nat := n.children.length

/-- Length of `node.byte_range()`. -/
def TSNode.rangeLen (n : TSNode) : Nat := n.endB - n.startB

mutual
/-- Pre-order DFS traversal (`traverse` in splice.rs), carrying each node's
parent so that the embedded code can model `node.parent()`. -/
def TSNode.preorderP : TSNode → Option TSNode → List (TSNode × Option TSNode)
  | .mk i k nm s e fns cs, par =>
    (.mk i k nm s e fns cs, par) ::
      TSNode.preorderListP cs (some (.mk i k nm s e fns cs))

def TSNode.preorderListP :
    List TSNode → Option TSNode → List (TSNode × Option TSNode)
  | [], _ => []
  | c :: rest, par => TSNode.preorderP c par ++ TSNode.preorderListP rest par
end

/-- Models `Splicer::all_nodes`: every node of the tree, in pre-order. -/
def allNodes (tree : TSNode) : List (TSNode × Option TSNode) :=
  tree.preorderP none

/-! ## Node-type schema (node_types.rs)

The decoded records of `node-types.json` and the four tables built by
`NodeTypes::new`. serde decoding is external; the embedding starts from the
decoded record list. -/

/-- A `(type, named)` record (struct `Subtype` in node_types.rs). -/
structure SubtypeRec where
  ty : String
  named : Bool
deriving Repr, DecidableEq

/-- The anonymous-children spec of a kind (struct `Children`). -/
structure ChildrenSpec where
  multiple : Bool
  required : Bool
  types : List SubtypeRec
deriving Repr, DecidableEq

/-- A named-field spec (struct `Field`). -/
structure FieldSpec where
  multiple : Bool
  required : Bool
  types : List SubtypeRec
deriving Repr, DecidableEq

/-- One record of `node-types.json` (struct `Node` in node_types.rs). -/
structure NTNode where
  ty : String
  named : Bool
  children : ChildrenSpec
  fields : List (String × FieldSpec)
  subtypes : List SubtypeRec
deriving Repr, DecidableEq

/-- A reverse-field entry (struct `FieldInfo`). -/
structure FieldInfo where
  parentTy : String
  multiple : Bool
  required : Bool
deriving Repr, DecidableEq

/-- The queryable schema (struct `NodeTypes`). -/
structure NodeTypes where
  children : List (String × ChildrenSpec)
  subtypes : List (String × List String)
  fields : List (String × List (String × FieldSpec))
  reverseFields : List (String × List FieldInfo)
deriving Repr

/-- The recursive transitive-subtype helper `subtypes` of node_types.rs,
line for line:

`r` starts as `[name]`; for every record whose type is `name` and every
direct subtype, the subtype is appended followed by the recursive result.
The Rust function recurses with no visited set, so it is fueled here:
`none` means the recursion did not finish within `fuel` nested calls, and
a result that is `none` for every fuel witnesses divergence. -/
def subtypesF : Nat → String → List NTNode → Option (List String)
  | 0, _, _ => none
  | fuel + 1, name, nodes =>
    nodes.foldlM
      (fun r n =>
        if n.ty = name then
          n.subtypes.foldlM
            (fun r subty => do
              let rec_ ← subtypesF fuel subty.ty nodes
              pure (r ++ [subty.ty] ++ rec_))
            r
        else
          pure r)
      [name]

/-- `NodeTypes::new` (node_types.rs lines 75-129), fueled through
`subtypesF`. The `find`-based interning of key strings is semantically the
identity and is dropped. `none` means some `subtypes` call diverged. -/
def NodeTypes.newF (fuel : Nat) (nodes : List NTNode) : Option NodeTypes := do
  let children := (nodes.filter (·.named)).map (fun n => (n.ty, n.children))
  let subtypes ← nodes.foldlM
    (fun acc n => do
      let s ← subtypesF fuel n.ty nodes
      pure (acc ++ [(n.ty, s)]))
    ([] : List (String × List String))
  let fields := nodes.map (fun n => (n.ty, n.fields))
  let reverseFields := nodes.foldl
    (fun acc n =>
      n.fields.foldl
        (fun acc fld =>
          fld.2.types.foldl
            (fun acc subtype =>
              ((assocFind subtypes subtype.ty).getD []).foldl
                (fun acc subsubty =>
                  let fi : FieldInfo :=
                    { parentTy := n.ty
                      multiple := fld.2.multiple
                      required := fld.2.required }
                  match assocFind acc subsubty with
                  | some _ =>
                    -- entry.and_modify: push onto the existing vector
                    acc.map (fun p => if p.1 = subsubty then (p.1, p.2 ++ [fi]) else p)
                  | none => acc ++ [(subsubty, [fi])])
                acc)
            acc)
        acc)
    ([] : List (String × List FieldInfo))
  pure { children := children, subtypes := subtypes, fields := fields
         reverseFields := reverseFields }

/-- `NodeTypes::optional` (node_types.rs lines 132-141): defaults to `true`;
`false` as soon as some reverse-field entry matches the parent kind with
`!multiple || required`. -/
def NodeTypes.optional (nt : NodeTypes) (nodeKind parentKind : String) : Bool :=
  match assocFind nt.reverseFields nodeKind with
  | some flds =>
    if flds.any (fun fi => parentKind = fi.parentTy && (!fi.multiple || fi.required))
    then false
    else true
  | none => true

/-- `NodeTypes::optional_node` (node_types.rs lines 145-151). The parent is
passed explicitly (the embedding carries `(node, parent)` pairs instead of
parent pointers). -/
def NodeTypes.optionalNode (nt : NodeTypes) (node : TSNode)
    (parent : Option TSNode) : Bool :=
  match parent with
  | some p => nt.optional node.kind p.kind
  | none => true

/-- `NodeTypes::get_subtypes`. -/
def NodeTypes.getSubtypes (nt : NodeTypes) (kind : String) :
    Option (List String) :=
  assocFind nt.subtypes kind

/-! ## parsed_as (splice.rs lines 303-325) -/

/-- The child-location loop inside `parsed_as`: walk `(fieldName, child)`
pairs; at the first child whose id matches, return the field's types when
the parent's fields table has an entry for that child's field name,
otherwise stop (the Rust `break`, which falls through to the children
spec). A `none` result covers both "break" and "child not found". -/
def findFieldTypes (fields : List (String × FieldSpec))
    (pairs : List (Option String × TSNode)) (nid : Nat) :
    Option (List SubtypeRec) :=
  match pairs with
  | [] => none
  | (nameOpt, c) :: rest =>
    if c.id = nid then
      match nameOpt with
      | some name =>
        match assocFind fields name with
        | some fld => some fld.types
        | none => none
      | none => none
    else findFieldTypes fields rest nid

/-- `parsed_as(node)` (splice.rs lines 303-325). The parent is explicit in
place of `node.parent()`; `parent.fieldNames.zip parent.children` models
`field_name_for_child(idx)` over the enumerated children. -/
def parsed_as (nt : NodeTypes) (parent : Option TSNode) (node : TSNode) :
    Option (List SubtypeRec) :=
  if !node.named then none
  else
    match parent with
    | none => none
    | some p =>
      match assocFind nt.fields p.kind with
      | none => none
      | some fields =>
        match findFieldTypes fields (p.fieldNames.zip p.children) node.id with
        | some tys => some tys
        | none => (assocFind nt.children p.kind).map (·.types)

/-- The claim's description of `parsed_as`, written from the spec's words
(§4.3): unnamed or parentless nodes give none; otherwise locate the node
among its parent's children to learn its field name; if the parent's fields
table has an entry for that name return its allowed kinds, else fall back
to the parent's anonymous children spec, else none. Used only to compare
against the source-derived `parsed_as`. -/
def parsedAsSpec (nt : NodeTypes) (parent : Option TSNode) (node : TSNode) :
    Option (List SubtypeRec) :=
  if !node.named then none
  else
    match parent with
    | none => none
    | some p =>
      let fieldTypes :=
        match assocFind nt.fields p.kind with
        | none => none
        | some fields => findFieldTypes fields (p.fieldNames.zip p.children) node.id
      match fieldTypes with
      | some tys => some tys
      | none => (assocFind nt.children p.kind).map (·.types)

/-! ## The Branch Index (struct `Branches`, splice.rs lines 26-96) -/

abbrev BranchMap := List (String × List Bytes)

/-- The bag stored at a kind (empty when the kind is not a key). -/
def bagOf (m : BranchMap) (k : String) : List Bytes :=
  (assocFind m k).getD []

/-- Whether `k` is a key of the index. -/
def isKey (m : BranchMap) (k : String) : Prop := k ∈ keysOfList m

instance (m : BranchMap) (k : String) : Decidable (isKey m k) := by
  unfold isKey; infer_instance

/-- `branches.entry(kind).or_insert_with(HashSet::new).insert(slice)`:
insert the slice at the kind, deduplicated by content, creating the key when
missing. The Rust `HashSet -> Vec` conversion order is unspecified;
insertion order is used here. -/
def bagInsertDedup (m : BranchMap) (k : String) (s : Bytes) : BranchMap :=
  match m with
  | [] => [(k, [s])]
  | (k', bag) :: rest =>
    if k' = k then (k', if s ∈ bag then bag else bag ++ [s]) :: rest
    else (k', bag) :: bagInsertDedup rest k s

/-- `result.entry(kind).or_default().extend(entries)`: append `entries` to
the bag at `kind`, creating the key (with those entries) when missing. -/
def bagExtend (m : BranchMap) (k : String) (entries : List Bytes) : BranchMap :=
  match m with
  | [] => [(k, entries)]
  | (k', bag) :: rest =>
    if k' = k then (k', bag ++ entries) :: rest
    else (k', bag) :: bagExtend rest k entries

/-- The per-kind traversal phase of `Branches::new` (splice.rs lines 31-43):
for every node of every input, insert `text[node.byte_range()]` at the
node's kind, deduplicated by content. -/
def corpusIndex (trees : List (Bytes × TSNode)) : BranchMap :=
  trees.foldl
    (fun m p =>
      (allNodes p.2).foldl
        (fun m np => bagInsertDedup m np.1.kind (sliceOf p.1 np.1.startB np.1.endB))
        m)
    []

/-- The body of the `for descendant in descendants` loop of `Branches::new`
(splice.rs lines 67-82), acting on `(queue, entries_to_add, result)`:
push unvisited descendants, skip the outer kind itself, and otherwise
accumulate the descendant's current bag into `entries_to_add` and extend
the bag at the outer kind with the accumulated entries. -/
def descStep (kind : String) (visited : List String)
    (acc : List String × List Bytes × BranchMap) (descendant : String) :
    List String × List Bytes × BranchMap :=
  let (q, eta, res) := acc
  let q := if descendant ∈ visited then q else descendant :: q
  if descendant = kind then (q, eta, res)
  else
    let eta := eta ++ bagOf res descendant
    (q, eta, bagExtend res kind eta)

/-- One run of the `while let Some(current_kind) = queue.pop()` loop of
`Branches::new` (splice.rs lines 56-83) for a fixed outer `kind`, fueled.
The queue is LIFO (`Vec::push`/`pop`); `entries_to_add` is cleared per
popped kind and accumulates across the descendant loop. Exhausted fuel
returns the state reached; the Rust loop always terminates because
`visited` grows. -/
def closureGo (nt : NodeTypes) (kind : String) :
    Nat → List String → List String → BranchMap → BranchMap
  | 0, _, _, result => result
  | fuel + 1, queue, visited, result =>
    match queue with
    | [] => result
    | current :: queue' =>
      if current ∈ visited then closureGo nt kind fuel queue' visited result
      else
        let visited' := current :: visited
        match nt.getSubtypes current with
        | none => closureGo nt kind fuel queue' visited' result
        | some descendants =>
          let st := descendants.foldl (descStep kind visited') (queue', [], result)
          closureGo nt kind fuel st.1 visited' st.2.2

/-- The closure phase of `Branches::new` (splice.rs lines 45-84): iterate
the kinds in `order` (the unspecified `HashSet` iteration order of
`result.keys ∪ children.keys ∪ fields.keys` is a parameter), running the
queue/visited loop for each. -/
def closeBranches (nt : NodeTypes) (order : List String) (fuel : Nat)
    (result0 : BranchMap) : BranchMap :=
  order.foldl (fun res kind => closureGo nt kind fuel [kind] [] res) result0

/-- Fuel for the closure loop. Each `closureGo` iteration consumes one queue
element and the loop stops on an empty queue regardless of remaining fuel,
so any sufficiently generous bound reproduces the Rust loop, which always
terminates because `visited` only grows. -/
def branchesFuel (nt : NodeTypes) : Nat :=
  (2 + nt.subtypes.foldl (fun n p => n + p.2.length) 0) *
    (2 + nt.subtypes.foldl (fun n p => n + p.2.length) 0)

/-- `Branches::new` (splice.rs lines 30-87) with the canonical kind order:
corpus keys, then children-table keys, then fields-table keys, deduplicated
first-occurrence-wins. -/
def Branches.new (trees : List (Bytes × TSNode)) (nt : NodeTypes) : BranchMap :=
  let result0 := corpusIndex trees
  let order := (keysOfList result0 ++ keysOfList nt.children ++
    keysOfList nt.fields).dedup
  closeBranches nt order (branchesFuel nt) result0

/-- Length of the largest candidate slice in a Branch Index. -/
def maxBagLen (m : BranchMap) : Nat :=
  ((m.map (fun p => p.2.map List.length)).flatten).foldr max 0

/-! ## The splice engine (splice.rs lines 106-441)

External collaborators are a parameter bundle `Externals`: the tree-sitter parse
of a byte buffer, the `tree_sitter_edit::render` primitive, and the mapping
from a `u64` seed to the `StdRng` draw stream. -/

structure Externals where
  parseFn : Bytes → TSNode
  renderFn : TSNode → Bytes → List (Nat × Bytes) → Option Bytes
  seedFn : Nat → Rng

/-- Splicing configuration (struct `Config`; the opaque `language` handle is
subsumed by `Externals.parseFn`). -/
structure Config where
  chaos : Nat
  deletions : Nat
  intraSplices : Nat
  interSplices : Nat
  maxSize : Nat
  nodeTypes : NodeTypes
  reparse : Nat
  seed : Nat

/-- The engine (struct `Splicer`). -/
structure Splicer where
  branches : BranchMap
  chaos : Nat
  deletions : Nat
  kinds : List String
  intraSplices : Nat
  interSplices : Nat
  maxSize : Nat
  nodeTypes : NodeTypes
  trees : List (Bytes × TSNode)
  reparse : Nat
  rng : Rng

/-- `Splicer::delta`: replacement length minus replaced range length. The
`isize::try_from(..).unwrap_or_default()` escape applies only to lengths
over `isize::MAX` and is dropped. -/
def delta (node : TSNode) (replace : Bytes) : Int :=
  (replace.length : Int) - (node.rangeLen : Int)

/-- `Splicer::new` (splice.rs lines 156-188): scan the files for a tree
whose root has children; if none, no engine. Otherwise build the Branch
Index, seed the RNG, and snapshot the key list. `files` carries the
`HashMap` iteration order explicitly. -/
def Splicer.new (ext : Externals) (config : Config)
    (files : List (String × (Bytes × TSNode))) : Option Splicer :=
  let allEmpty := files.foldl
    (fun acc f => if f.2.2.childCount ≠ 0 then false else acc) true
  let trees := files.map (fun f => (f.2.1, f.2.2))
  if allEmpty then none
  else
    let branches := Branches.new trees config.nodeTypes
    some
      { branches := branches
        chaos := config.chaos
        deletions := config.deletions
        kinds := keysOfList branches
        intraSplices := config.intraSplices
        interSplices := config.interSplices
        maxSize := config.maxSize
        nodeTypes := config.nodeTypes
        trees := trees
        reparse := config.reparse
        rng := ext.seedFn config.seed }

/-- The resample loop of `delete_node` (splice.rs lines 205-213): keep
drawing until an optional node is found; after the draw at the 258th
iteration the Rust loop returns `None` (`if i > 256`), modelled by the
countdown reaching zero. -/
def deleteLoop (nt : NodeTypes) (nodes : List (TSNode × Option TSNode)) :
    Nat → (TSNode × Option TSNode) → Rng →
    (Option (TSNode × Option TSNode)) × Rng
  | c, np, rng =>
    if nt.optionalNode np.1 np.2 then (some np, rng)
    else
      match chooseL rng nodes with
      | none => (none, rng)
      | some (np', rng') =>
        match c with
        | 0 => (none, rng')
        | c' + 1 => deleteLoop nt nodes c' np' rng'

/-- `Splicer::delete_node` (splice.rs lines 196-215). The unused `_text`
argument is dropped; `self.rng`, `self.chaos` and `self.node_types` are
explicit. A `none` first component with nonempty `nodes` means the retry
budget ran out (`chooseL` is total on nonempty lists). -/
def delete_node (nt : NodeTypes) (chaos : Nat) (rng : Rng)
    (nodes : List (TSNode × Option TSNode)) :
    (Option (Nat × Bytes × Int)) × Rng :=
  let (c, rng1) := randomRange rng 0 100
  let chaotic := c < chaos
  match chooseL rng1 nodes with
  | none => (none, rng1)
  | some (np, rng2) =>
    if chaotic ∨ nodes.all (fun n => !(nt.optionalNode n.1 n.2)) then
      (some (np.1.id, ([] : Bytes), delta np.1 []), rng2)
    else
      match deleteLoop nt nodes 257 np rng2 with
      | (some np', rng3) => (some (np'.1.id, ([] : Bytes), delta np'.1 []), rng3)
      | (none, rng3) => (none, rng3)

/-- `splice_candidates` (splice.rs lines 327-354). Chaotic mode draws a kind
from the engine's key list and indexes the bags directly (the Rust `[]`
index would panic on a missing key; the engine's `kinds` are exactly the
inter-file index keys, and the missing-key case is modelled as the empty
bag); otherwise a kind drawn from `parsed_as`, or the node's own kind, is
looked up with the empty-bag default. -/
def splice_candidates (rng : Rng) (kinds : List String) (branches : BranchMap)
    (nt : NodeTypes) (chaotic : Bool) (np : TSNode × Option TSNode) :
    List Bytes × Rng :=
  if chaotic then
    match chooseL rng kinds with
    | some (k, rng') => (bagOf branches k, rng')
    | none => ([], rng)
  else
    match parsed_as nt np.2 np.1 with
    | some ks =>
      if ks.isEmpty then (bagOf branches np.1.kind, rng)
      else
        match chooseL rng ks with
        | some (st, rng') => (bagOf branches st.ty, rng')
        | none => ([], rng)
    | none => (bagOf branches np.1.kind, rng)

/-- The node-selection loop of `splice` (splice.rs lines 371-389): draw a
node and its candidate bag until the bag has more than one entry; `None`
when the budget runs out (`if i > 256` after the check). -/
def spliceLoop1 (kinds : List String) (branches : BranchMap) (nt : NodeTypes)
    (chaotic : Bool) (nodes : List (TSNode × Option TSNode)) :
    Nat → Rng → (Option ((TSNode × Option TSNode) × List Bytes)) × Rng
  | c, rng =>
    match chooseL rng nodes with
    | none => (none, rng)
    | some (np, rng1) =>
      let (cands, rng2) := splice_candidates rng1 kinds branches nt chaotic np
      if cands.length > 1 then (some (np, cands), rng2)
      else
        match c with
        | 0 => (none, rng2)
        | c' + 1 => spliceLoop1 kinds branches nt chaotic nodes c' rng2

/-- The candidate-selection loop of `splice` (splice.rs lines 398-413): draw
candidates until one differs from the node's current text; after the budget
the last draw is accepted (`break`, not `return`). -/
def spliceLoop2 (cands : List Bytes) (nodeText : Bytes) :
    Nat → Rng → (Option Bytes) × Rng
  | c, rng =>
    match chooseL rng cands with
    | none => (none, rng)
    | some (cand, rng1) =>
      if cand ≠ nodeText then (some cand, rng1)
      else
        match c with
        | 0 => (some cand, rng1)
        | c' + 1 => spliceLoop2 cands nodeText c' rng1

/-- `splice` (splice.rs lines 356-425). -/
def splice (rng : Rng) (chaos : Nat) (kinds : List String)
    (branches : BranchMap) (text : Bytes)
    (nodes : List (TSNode × Option TSNode)) (nt : NodeTypes) :
    (Option (Nat × Bytes × Int)) × Rng :=
  let (c, rng1) := randomRange rng 0 100
  let chaotic := c < chaos
  match spliceLoop1 kinds branches nt chaotic nodes 257 rng1 with
  | (none, rng2) => (none, rng2)
  | (some (np, cands), rng2) =>
    let nodeText := sliceOf text np.1.startB np.1.endB
    match spliceLoop2 cands nodeText 257 rng2 with
    | (none, rng3) => (none, rng3)
    | (some cand, rng3) => (some (np.1.id, cand, delta np.1 cand), rng3)

/-- The mutable per-output state of `splice_tree`. -/
structure SpliceSt where
  rng : Rng
  text : Bytes
  tree : TSNode
  nodes : List (TSNode × Option TSNode)
  edits : List (Nat × Bytes)
  sz : Int
  intraBranches : BranchMap

/-- The `for i in 0..splices` loop of `splice_tree` (splice.rs lines
245-297), iterating over the remaining indices. Each iteration draws the
deletion-vs-splice choice, applies the staged edit, tracks `sz`, renders
and reparses on the reparse cadence, the final inter-splice, or size
exhaustion, and stops early when sized out. `none` is a render failure. -/
def spliceIter (ext : Externals) (S : Splicer) (interSplices : Nat) :
    List Nat → SpliceSt → Option SpliceSt
  | [], st => some st
  | i :: rest, st =>
    let (d, rng1) := randomRange st.rng 0 100
    let (result, rng2) :=
      if d < S.deletions then
        delete_node S.nodeTypes S.chaos rng1 st.nodes
      else if i < S.intraSplices then
        splice rng1 S.chaos S.kinds st.intraBranches st.text st.nodes S.nodeTypes
      else
        splice rng1 S.chaos S.kinds S.branches st.text st.nodes S.nodeTypes
    match result with
    | none => spliceIter ext S interSplices rest { st with rng := rng2 }
    | some (id, bytes, dlt) =>
      let edits := assocInsertNat st.edits id bytes
      let sz := st.sz + dlt
      let szU := sz.toNat
      let sizedOut := S.maxSize ≤ szU
      if i % S.reparse = 0 ∨ i + 1 = interSplices ∨ sizedOut then
        match ext.renderFn st.tree st.text edits with
        | none => none
        | some rendered =>
          let tree := ext.parseFn rendered
          let st' : SpliceSt :=
            { rng := rng2
              text := rendered
              tree := tree
              nodes := allNodes tree
              edits := []
              sz := sz
              intraBranches :=
                if i < S.intraSplices then
                  Branches.new [(rendered, tree)] S.nodeTypes
                else Branches.new [] S.nodeTypes }
          if sizedOut then some st'
          else spliceIter ext S interSplices rest st'
      else
        -- `sized_out` implies the render condition, so the early break
        -- cannot be reached without a render
        spliceIter ext S interSplices rest
          { st with rng := rng2, edits := edits, sz := sz }

/-- `Splicer::splice_tree` (splice.rs lines 217-300) returning the full
final state. Draws the inter- and intra-splice counts (half-open upper
bound, values `≤ 1` used as-is), returns `none` when their sum is zero,
and otherwise runs the mutation loop from the seed state. -/
def spliceTreeFull (ext : Externals) (S : Splicer) (text0 : Bytes) (tree : TSNode) :
    Option SpliceSt :=
  let (interSplices, rng1) :=
    if S.interSplices ≤ 1 then (S.interSplices, S.rng)
    else randomRange S.rng 1 S.interSplices
  let (intraSplices, rng2) :=
    if S.intraSplices ≤ 1 then (S.intraSplices, rng1)
    else randomRange rng1 1 S.intraSplices
  let splices := interSplices + intraSplices
  if splices = 0 then none
  else
    spliceIter ext S interSplices (List.range splices)
      { rng := rng2
        text := text0
        tree := tree
        nodes := allNodes tree
        edits := []
        sz := (text0.length : Int)
        intraBranches :=
          if 0 < S.intraSplices then Branches.new [(text0, tree)] S.nodeTypes
          else Branches.new [] S.nodeTypes }

/-- `Splicer::splice_tree`'s return value: the final text. -/
def splice_tree (ext : Externals) (S : Splicer) (text0 : Bytes) (tree : TSNode) :
    Option Bytes :=
  (spliceTreeFull ext S text0 tree).map (·.text)

/-- The seed-selection loop of `Iterator::next` (splice.rs lines 433-438):
draw inputs until one of size at most `max_size` comes up. The Rust loop
has no bound; `none` for every fuel models divergence. -/
def seedPick : Nat → List (Bytes × TSNode) → Nat → Rng →
    Option (Bytes × TSNode × Rng)
  | 0, _, _, _ => none
  | fuel + 1, trees, maxSize, rng =>
    match chooseL rng trees with
    | none => none
    | some ((text, tree), rng') =>
      if text.length ≤ maxSize then some (text, tree, rng')
      else seedPick fuel trees maxSize rng'

/-- One `Iterator::next` call (splice.rs lines 430-440): pick a seed input,
then splice a clone of its tree. -/
def nextBytes (ext : Externals) (fuel : Nat) (S : Splicer) : Option Bytes :=
  match seedPick fuel S.trees S.maxSize S.rng with
  | none => none
  | some (text, tree, rng') => splice_tree ext { S with rng := rng' } text tree

/-! ## A concrete render implementation

Modelled from the spec: the tree-rewrite primitive of §4.4 (the external
`tree_sitter_edit` crate) — given a tree, its source bytes and the edit
buffer, produce the bytes implied by applying every edit once, top-down,
replacing each edited node's byte range and skipping its subtree. Used to
instantiate `Externals.renderFn` in concrete runs. -/

mutual
def renderNode (edits : List (Nat × Bytes)) (text : Bytes) : TSNode → Bytes
  | .mk i _ _ s e _ cs =>
    match assocFindNat edits i with
    | some b => b
    | none => renderSeq edits text cs s e

def renderSeq (edits : List (Nat × Bytes)) (text : Bytes) :
    List TSNode → Nat → Nat → Bytes
  | [], pos, stop => sliceOf text pos stop
  | c :: rest, pos, stop =>
    sliceOf text pos c.startB ++ renderNode edits text c ++
      renderSeq edits text rest c.endB stop
end

def renderImpl (tree : TSNode) (text : Bytes) (edits : List (Nat × Bytes)) :
    Option Bytes :=
  some (renderNode edits text tree)

/-! ## Concrete instances

Small schemas, trees and external-function instances used by the
counterexample and witness theorems. Trees stand for parses of the external
tree-sitter parser and are well-formed (nested, ordered ranges; distinct
ids). -/

/-- A schema with no records at all (every table empty). -/
def ntEmpty : NodeTypes :=
  { children := [], subtypes := [], fields := [], reverseFields := [] }

/-- A one-child tree over a 1-byte text: root kind `r`, child kind `s`. -/
def oneByteTree : TSNode :=
  .mk 0 "r" false 0 1 [none] [.mk 1 "s" false 0 1 [] []]

/-- A parser instance returning a bare root over the whole text. -/
def leafParse (text : Bytes) : TSNode :=
  .mk 0 "r" false 0 text.length [] []

/-- Two input files with equal map contents in the two possible `HashMap`
iteration orders: texts `[120]` ("x") and `[121]` ("y"), each parsed as
`oneByteTree`. -/
def filesXY : List (String × (Bytes × TSNode)) :=
  [("a", ([120], oneByteTree)), ("b", ([121], oneByteTree))]

def filesYX : List (String × (Bytes × TSNode)) :=
  filesXY.reverse

def extXY : Externals :=
  { parseFn := leafParse
    renderFn := renderImpl
    seedFn := fun _ => [0, 0, 0, 0, 1] }

def cfgXY : Config :=
  { chaos := 0, deletions := 0, intraSplices := 0, interSplices := 1
    maxSize := 10, nodeTypes := ntEmpty, reparse := 1, seed := 0 }

/-- The engine run used against determinism: construct the engine over a
file map and take the first `next()` output. -/
def firstMutant (ext : Externals) (config : Config)
    (files : List (String × (Bytes × TSNode))) : Option (Option Bytes) :=
  (Splicer.new ext config files).map (nextBytes ext 64)

/-- Schema for the size-bound counterexample: kind `z` has the root kind
`r` in its transitive subtype list, so the root slice (the whole input)
lands in the bag at `z` during closure. -/
def ntSize : NodeTypes :=
  { children := []
    subtypes := [("z", ["z", "r"]), ("r", ["r"])]
    fields := []
    reverseFields := [] }

/-- The text "ab". -/
def ab : Bytes := [97, 98]

/-- The tree of "ab": a root of kind `r` over bytes 0..2 with one
zero-width child of kind `z` at byte 2 (tree-sitter produces zero-width
nodes for missing tokens). -/
def zwTree : TSNode :=
  .mk 0 "r" false 0 2 [none] [.mk 1 "z" false 2 2 [] []]

def filesSize : List (String × (Bytes × TSNode)) :=
  [("f", (ab, zwTree))]

/-- Draw stream for the size-bound run: seed pick, then one splice that
lands on the zero-width `z` node and draws the whole-input candidate. -/
def extSize : Externals :=
  { parseFn := leafParse
    renderFn := renderImpl
    seedFn := fun _ => [0, 0, 0, 1, 1] }

def cfgSize : Config :=
  { chaos := 0, deletions := 0, intraSplices := 0, interSplices := 1
    maxSize := 2, nodeTypes := ntSize, reparse := 1, seed := 0 }

/-- The cyclic node-type schema: `a` lists `b` as a subtype and `b` lists
`a`. -/
def cycNodes : List NTNode :=
  [ { ty := "a", named := true
      children := { multiple := false, required := false, types := [] }
      fields := []
      subtypes := [{ ty := "b", named := true }] }
  , { ty := "b", named := true
      children := { multiple := false, required := false, types := [] }
      fields := []
      subtypes := [{ ty := "a", named := true }] } ]

/-- Modelled from the spec: the tree-sitter-rust parse of
`fn f() \x7b let x = y; \x7d` around the `let_declaration` node and the
Rust grammar's `node-types.json` entry for `let_declaration` (scenario S4;
the grammar and parser are external collaborators). The `value` field
admits exactly `_expression`. -/
def ntS4 : NodeTypes :=
  { children := []
    subtypes := []
    fields :=
      [("let_declaration",
        [ ("pattern",
            { multiple := false, required := true
              types := [{ ty := "_pattern", named := true }] })
        , ("value",
            { multiple := false, required := false
              types := [{ ty := "_expression", named := true }] }) ])]
    reverseFields := [] }

/-- The node with text `y` in `let x = y;`. -/
def yNode : TSNode := .mk 4 "identifier" true 17 18 [] []

/-- The `let_declaration` parent node spanning `let x = y;`, children
`let`, `x` (field `pattern`), `=`, `y` (field `value`), `;`. -/
def letDeclNode : TSNode :=
  .mk 2 "let_declaration" true 9 19
    [none, some "pattern", none, some "value", none]
    [ .mk 10 "let" false 9 12 [] []
    , .mk 11 "identifier" true 13 14 [] []
    , .mk 12 "=" false 15 16 [] []
    , yNode
    , .mk 13 ";" false 18 19 [] [] ]

/-- The configuration of `filesXY` runs with zero mutations
(`inter_splices = 0`, `intra_splices = 0`). -/
def cfgZeroXY : Config :=
  { cfgXY with interSplices := 0 }

/-- An engine state with zero mutations configured. -/
def splicerZero : Splicer :=
  { branches := [], chaos := 0, deletions := 0, kinds := [], intraSplices := 0
    interSplices := 0, maxSize := 10, nodeTypes := ntEmpty, trees := []
    reparse := 1, rng := [] }

/-- A one-file corpus whose only kind is `r`. -/
def corpus6 : List (Bytes × TSNode) :=
  [([120], .mk 0 "r" false 0 1 [] [])]

/-- A schema whose children table mentions kind `k`, where `k` has the
trivial subtype list `[k]`. -/
def nt6 : NodeTypes :=
  { children := [("k", { multiple := false, required := false, types := [] })]
    subtypes := [("k", ["k"]), ("r", ["r"])]
    fields := []
    reverseFields := [] }

/-- Transitivity of a subtypes table: whenever `b` is in the subtype list
of `a`, everything in the subtype list of `b` is in that of `a`. The table
built by `NodeTypes::new` has this shape because the recursive helper
inlines each subtype's own transitive list. -/
def StTrans (st : List (String × List String)) : Prop :=
  ∀ a la, assocFind st a = some la →
    ∀ b ∈ la, ∀ lb, assocFind st b = some lb → ∀ x ∈ lb, x ∈ la

/-- A slice at kind `j` originates from the corpus: it sits in the initial
per-kind index at some kind that is `j` itself or is in `j`'s subtype
list. -/
def OriginAt (res0 : BranchMap) (st : List (String × List String))
    (j : String) (s : Bytes) : Prop :=
  ∃ k2, s ∈ bagOf res0 k2 ∧
    (k2 = j ∨ ∃ lj, assocFind st j = some lj ∧ k2 ∈ lj)

/-- Every bag of `res` holds only slices originating as corpus slices of
the kind's subtype closure. -/
def OriginInv (res0 : BranchMap) (st : List (String × List String))
    (res : BranchMap) : Prop :=
  ∀ j s, s ∈ bagOf res j → OriginAt res0 st j s

/-- A corpus for the C3 witness: a single node of kind `b` over one byte. -/
def trees3 : List (Bytes × TSNode) :=
  [([7], .mk 0 "b" false 0 1 [] [])]

/-- A transitively closed schema for the C3 witness: `a` has subtype `b`. -/
def nt3 : NodeTypes :=
  { children := [("a", { multiple := false, required := false, types := [] })]
    subtypes := [("a", ["a", "b"]), ("b", ["b"])]
    fields := []
    reverseFields := [] }

/-- The engine state of the size-bound run (as `Splicer::new` builds it on
`filesSize`, with the seed draw already consumed). -/
def sizeEngine : Splicer :=
  { branches := Branches.new [(ab, zwTree)] ntSize
    chaos := 0
    deletions := 0
    kinds := keysOfList (Branches.new [(ab, zwTree)] ntSize)
    intraSplices := 0
    interSplices := 1
    maxSize := 2
    nodeTypes := ntSize
    trees := [(ab, zwTree)]
    reparse := 1
    rng := [0, 0, 1, 1] }

/-! ## Helper lemmas -/

theorem getD_mem_or_eq {α : Type} (l : List α) (i : Nat) (d : α) :
    l.getD i d ∈ l ∨ l.getD i d = d := by
  induction l generalizing i with
  | nil => right; rfl
  | cons a t ih =>
    cases i with
    | zero => left; simp [List.getD_cons_zero]
    | succ j =>
      rw [List.getD_cons_succ]
      rcases ih j with h | h
      · left; exact List.mem_cons_of_mem a h
      · right; exact h

theorem chooseL_mem {α : Type} {rng : Rng} {l : List α} {a : α} {rng' : Rng}
    (h : chooseL rng l = some (a, rng')) : a ∈ l := by
  cases l with
  | nil => simp [chooseL] at h
  | cons c rest =>
    simp only [chooseL] at h
    obtain ⟨h1, _⟩ := Prod.mk.injEq .. ▸ (Option.some.injEq .. ▸ h)
    subst h1
    rcases getD_mem_or_eq (c :: rest) (randomRange rng 0 (c :: rest).length).1 c with
      h | h
    · exact h
    · rw [h]; exact List.mem_cons_self c rest

theorem assocFind_eq_none {α : Type} (m : List (String × α)) (k : String) :
    assocFind m k = none ↔ k ∉ keysOfList m := by
  induction m with
  | nil => simp [assocFind, keysOfList]
  | cons p rest ih =>
    obtain ⟨k', v⟩ := p
    simp only [assocFind, keysOfList, List.map_cons, List.mem_cons]
    by_cases hk : k' = k
    · subst hk
      simp
    · rw [if_neg hk, ih]
      unfold keysOfList
      constructor
      · intro h hmem
        rcases hmem with h1 | h1
        · exact hk h1.symm
        · exact h h1
      · intro h h1
        exact h (Or.inr h1)

theorem assocFind_mem {α : Type} {m : List (String × α)} {k : String} {v : α}
    (h : assocFind m k = some v) : (k, v) ∈ m := by
  induction m with
  | nil => simp [assocFind] at h
  | cons p rest ih =>
    obtain ⟨k', v'⟩ := p
    by_cases hk : k' = k
    · subst hk
      simp [assocFind] at h
      simp [h]
    · simp [assocFind, hk] at h
      exact List.mem_cons_of_mem _ (ih h)

/-! ## C7: the optionality predicate -/

theorem optional_eq_false_iff (nt : NodeTypes) (k p : String) :
    nt.optional k p = false ↔
      ∃ fi ∈ (assocFind nt.reverseFields k).getD [],
        p = fi.parentTy ∧ (fi.multiple = false ∨ fi.required = true) := by
  cases h : assocFind nt.reverseFields k with
  | none => simp [NodeTypes.optional, h]
  | some flds =>
    by_cases ha : flds.any
        (fun fi => p = fi.parentTy && (!fi.multiple || fi.required)) = true
    · simp only [NodeTypes.optional, h, Option.getD_some, ha, if_true, true_iff]
      simp only [List.any_eq_true, Bool.and_eq_true, decide_eq_true_eq,
        Bool.or_eq_true, Bool.not_eq_true'] at ha
      exact ha
    · simp only [NodeTypes.optional, h, Option.getD_some, ha, if_false]
      simp only [List.any_eq_true, Bool.and_eq_true, decide_eq_true_eq,
        Bool.or_eq_true, Bool.not_eq_true'] at ha
      constructor
      · intro hcon; cases hcon
      · intro hex; exact absurd hex ha

/-- **C7.** `optional(kind, parent_kind)` returns `false` iff some entry of
`reverse_fields[kind]` names `parent_kind` with `multiple = false` or
`required = true`; a kind absent from `reverse_fields` reports `true`, and
`optional_node` on a parentless node reports `true`. -/
theorem c7_optional_characterization (nt : NodeTypes) (k p : String)
    (n : TSNode) :
    (nt.optional k p = false ↔
      ∃ fi ∈ (assocFind nt.reverseFields k).getD [],
        p = fi.parentTy ∧ (fi.multiple = false ∨ fi.required = true))
    ∧ (assocFind nt.reverseFields k = none → nt.optional k p = true)
    ∧ nt.optionalNode n none = true :=
  ⟨optional_eq_false_iff nt k p,
   fun h => by simp [NodeTypes.optional, h],
   rfl⟩

/-- Witness for `c7_optional_characterization`: at a concrete schema whose
`reverse_fields` is empty, the lookup misses and `optional` reports `true`. -/
theorem c7_optional_characterization_witness :
    ntEmpty.optional "x" "y" = true :=
  (c7_optional_characterization ntEmpty "x" "y" yNode).2.1 (by decide)

/-! ## C9: engine construction -/

theorem allEmpty_foldl (files : List (String × (Bytes × TSNode))) (acc : Bool) :
    files.foldl (fun acc f => if f.2.2.childCount ≠ 0 then false else acc) acc =
      (acc && files.all (fun f => f.2.2.childCount == 0)) := by
  induction files generalizing acc with
  | nil => simp
  | cons f rest ih =>
    simp only [List.foldl_cons, List.all_cons]
    by_cases h : f.2.2.childCount ≠ 0
    · rw [if_pos h, ih]
      have : (f.2.2.childCount == 0) = false := by
        simpa [Nat.beq_eq_true_eq] using h
      rw [this]
      simp
    · rw [if_neg h]
      have h0 : f.2.2.childCount = 0 := by omega
      rw [ih, h0]
      simp

/-- **C9.** `Splicer::new` returns no engine exactly when every input
file's tree has a root with zero children; with at least one non-empty
input tree it returns an engine. -/
theorem c9_new_none_iff_all_empty (ext : Externals) (config : Config)
    (files : List (String × (Bytes × TSNode))) :
    Splicer.new ext config files = none ↔
      ∀ f ∈ files, f.2.2.childCount = 0 := by
  have hfold := allEmpty_foldl files true
  rw [Bool.true_and] at hfold
  cases hall : files.all (fun f => f.2.2.childCount == 0) with
  | true =>
    rw [hall] at hfold
    have hnone : Splicer.new ext config files = none := by
      simp only [Splicer.new, hfold, if_true]
    rw [hnone]
    refine iff_of_true rfl ?_
    intro f hf
    have := List.all_eq_true.mp hall f hf
    simpa [Nat.beq_eq_true_eq] using this
  | false =>
    rw [hall] at hfold
    have hsome : Splicer.new ext config files ≠ none := by
      simp only [Splicer.new, hfold, Bool.false_eq_true, if_false]
      simp
    refine iff_of_false hsome ?_
    intro hforall
    have : files.all (fun f => f.2.2.childCount == 0) = true := by
      rw [List.all_eq_true]
      intro f hf
      simpa [Nat.beq_eq_true_eq] using hforall f hf
    rw [this] at hall
    cases hall

/-! ## C10: the seed-selection loop of next() -/

theorem seedPick_le {fuel : Nat} {trees : List (Bytes × TSNode)}
    {maxSize : Nat} {rng : Rng} {text : Bytes} {tree : TSNode} {rng' : Rng}
    (h : seedPick fuel trees maxSize rng = some (text, tree, rng')) :
    text.length ≤ maxSize := by
  induction fuel generalizing rng with
  | zero => simp [seedPick] at h
  | succ f ih =>
    simp only [seedPick] at h
    cases hc : chooseL rng trees with
    | none => simp [hc] at h
    | some p =>
      obtain ⟨⟨t0, tr0⟩, rng1⟩ := p
      simp only [hc] at h
      split at h
      next hlen =>
        simp only [Option.some.injEq, Prod.mk.injEq] at h
        obtain ⟨rfl, -, -⟩ := h
        exact hlen
      next => exact ih h

theorem seedPick_none_of_oversized {trees : List (Bytes × TSNode)}
    {maxSize : Nat} (h : ∀ p ∈ trees, maxSize < p.1.length) :
    ∀ (fuel : Nat) (rng : Rng), seedPick fuel trees maxSize rng = none := by
  intro fuel
  induction fuel with
  | zero => intro rng; rfl
  | succ f ih =>
    intro rng
    simp only [seedPick]
    cases hc : chooseL rng trees with
    | none => rfl
    | some p =>
      obtain ⟨⟨t0, tr0⟩, rng1⟩ := p
      simp only [hc]
      have hmem := chooseL_mem hc
      have hlen : maxSize < t0.length := h _ hmem
      rw [if_neg (by omega)]
      exact ih rng1

/-- **C10.** The seed-selection loop of `next()` accepts exactly the inputs
of length at most `max_size` (length equal to `max_size` is accepted), and
when every input is strictly longer than `max_size` it never terminates:
the fueled loop returns nothing for every fuel. -/
theorem c10_next_seed_selection (trees : List (Bytes × TSNode))
    (maxSize : Nat) :
    (∀ (fuel : Nat) (rng : Rng) (text : Bytes) (tree : TSNode) (rng' : Rng),
       seedPick fuel trees maxSize rng = some (text, tree, rng') →
       text.length ≤ maxSize)
    ∧ ((∀ p ∈ trees, maxSize < p.1.length) →
       ∀ (fuel : Nat) (rng : Rng), seedPick fuel trees maxSize rng = none) :=
  ⟨fun _ _ _ _ _ h => seedPick_le h, fun h => seedPick_none_of_oversized h⟩

/-- Witness for `c10_next_seed_selection`: a length-5 input is accepted at
`max_size = 5`, and with `max_size = 3` the loop returns nothing at any
fuel. -/
theorem c10_next_seed_selection_witness :
    ab.length ≤ 2 ∧
    seedPick 9 [(ab, zwTree)] 1 [0, 1, 2] = none := by
  constructor
  · exact (c10_next_seed_selection [(ab, zwTree)] 2).1 1 []
      ab zwTree [] (by rfl)
  · exact (c10_next_seed_selection [(ab, zwTree)] 1).2
      (by decide) 9 [0, 1, 2]

/-! ## C4: divergence of the transitive-subtype helper on a cycle -/

theorem subtypesF_cyc_both (fuel : Nat) :
    subtypesF fuel "a" cycNodes = none ∧ subtypesF fuel "b" cycNodes = none := by
  induction fuel with
  | zero => exact ⟨rfl, rfl⟩
  | succ f ih =>
    have ih1 := ih.1
    have ih2 := ih.2
    simp only [cycNodes] at ih1 ih2
    constructor
    · show subtypesF (f + 1) "a" cycNodes = none
      simp [subtypesF, cycNodes, List.foldlM, ih1, ih2]
    · show subtypesF (f + 1) "b" cycNodes = none
      simp [subtypesF, cycNodes, List.foldlM, ih1, ih2]

/-- **C4.** The transitive-subtype recursion of node_types.rs has no
visited set: on the cyclic schema where `a` lists `b` as a subtype and `b`
lists `a`, the recursion never terminates — the fueled embedding returns
nothing for every fuel — and `NodeTypes::new` on that schema diverges with
it. The spec requires the computation to terminate on every schema by
marking visited kinds; the code does not mark them. -/
theorem c4_subtypes_diverges_on_cycle :
    (∀ fuel, subtypesF fuel "a" cycNodes = none) ∧
    (∀ fuel, NodeTypes.newF fuel cycNodes = none) := by
  constructor
  · exact fun fuel => (subtypesF_cyc_both fuel).1
  · intro fuel
    have ha := (subtypesF_cyc_both fuel).1
    simp only [cycNodes] at ha
    simp [NodeTypes.newF, cycNodes, List.foldlM, ha]

/-! ## C5: zero mutations -/

/-- The amended C5: with `inter_splices = 0` and `intra_splices = 0`,
`splice_tree` yields no output at all (`None`) rather than the unchanged
seed input. -/
theorem c5_amended_zero_mutations (ext : Externals) (S : Splicer)
    (text0 : Bytes) (tree : TSNode) (hinter : S.interSplices = 0)
    (hintra : S.intraSplices = 0) :
    splice_tree ext S text0 tree = none := by
  simp [splice_tree, spliceTreeFull, hinter, hintra]

/-- Witness for `c5_amended_zero_mutations` at a concrete engine state. -/
theorem c5_amended_zero_mutations_witness :
    splice_tree extXY splicerZero [120] oneByteTree = none :=
  c5_amended_zero_mutations extXY splicerZero [120] oneByteTree rfl rfl

set_option maxHeartbeats 4000000 in
/-- Counterexample to C5 as stated: on a concrete engine built over a
one-byte input, splicing with zero mutations returns `None`, not the
unchanged seed bytes. -/
theorem c5_counterexample :
    (Splicer.new extXY cfgZeroXY filesXY).map
        (fun S => splice_tree extXY S [120] oneByteTree) = some none ∧
    some (none : Option Bytes) ≠ some (some ([120] : Bytes)) := by
  exact ⟨by decide, by decide⟩

/-! ## C1: determinism across runs -/

set_option maxHeartbeats 4000000 in
/-- **C1.** Two runs of the engine with the same seed, configuration,
schema and external functions, over file maps with identical contents
presented in the two `HashMap` iteration orders, produce different first
mutants: `Splicer::new` iterates `files` and `Branches::new` converts
hash sets to vectors without stabilizing the order, so the hash order
leaks into the output through `trees.choose` and `candidates.choose`.
The file lists are permutations of each other (equal as maps). -/
theorem c1_hash_order_breaks_determinism :
    filesXY.Perm filesYX ∧
    firstMutant extXY cfgXY filesXY = some (some [121]) ∧
    firstMutant extXY cfgXY filesYX = some (some [120]) ∧
    firstMutant extXY cfgXY filesXY ≠ firstMutant extXY cfgXY filesYX := by
  refine ⟨(List.reverse_perm filesXY).symm, by decide, by decide, by decide⟩

/-! ## C2 and C6: counterexamples -/

set_option maxHeartbeats 4000000 in
/-- Counterexample to the strict size bound of C2: with a seed input of
length exactly `max_size` (accepted by `next()`), a single splice that
replaces a zero-width node by the largest candidate slice renders a mutant
of length exactly `max_size + largest_candidate = 4`, not strictly below
it. -/
theorem c2_counterexample :
    firstMutant extSize cfgSize filesSize = some (some [97, 98, 97, 98]) ∧
    (Splicer.new extSize cfgSize filesSize).map
        (fun S => maxBagLen S.branches) = some 2 ∧
    cfgSize.maxSize = 2 ∧
    ([97, 98, 97, 98] : Bytes).length = 4 ∧
    ¬(([97, 98, 97, 98] : Bytes).length < cfgSize.maxSize + 2) := by
  exact ⟨by decide, by decide, rfl, by decide, by decide⟩

set_option maxHeartbeats 4000000 in
/-- Counterexample to C6 as stated: kind `k` is mentioned in the schema's
children table but has the trivial subtype list `[k]`, and the closure
loop's `continue` skips the `or_default` entry creation for it, so `k` is
not a key of the constructed index. -/
theorem c6_counterexample :
    keysOfList (Branches.new corpus6 nt6) = ["r"] ∧
    "k" ∈ keysOfList nt6.children ∧
    "k" ∉ keysOfList (Branches.new corpus6 nt6) := by
  exact ⟨by decide, by decide, by decide⟩

/-! ## C8: parsed_as -/

theorem parsedAs_eq_spec (nt : NodeTypes) (parent : Option TSNode)
    (node : TSNode)
    (h : ∀ k, k ∈ keysOfList nt.children → k ∈ keysOfList nt.fields) :
    parsed_as nt parent node = parsedAsSpec nt parent node := by
  unfold parsed_as parsedAsSpec
  by_cases hn : (!node.named) = true
  · rw [if_pos hn, if_pos hn]
  · rw [if_neg hn, if_neg hn]
    cases parent with
    | none => rfl
    | some p =>
      cases hf : assocFind nt.fields p.kind with
      | some fields => simp only [hf]
      | none =>
        have hc : assocFind nt.children p.kind = none := by
          rw [assocFind_eq_none] at hf ⊢
          intro hck
          exact hf (h _ hck)
        simp [hf, hc]

/-- **C8.** `parsed_as` behaves as the spec describes it — none for unnamed
or parentless nodes, the matched field's allowed kinds when the parent's
fields table has an entry for the child's field name, otherwise the
parent's anonymous children spec, otherwise none — whenever every
children-table kind also has a fields-table entry (true of every schema
built by `NodeTypes::new`, whose fields table covers all records); and on
the S4 scenario the `y` node of `let x = y;` has kind `identifier` with
`parsed_as = [_expression]`. -/
theorem c8_parsed_as (nt : NodeTypes) (parent : Option TSNode) (node : TSNode)
    (h : ∀ k, k ∈ keysOfList nt.children → k ∈ keysOfList nt.fields) :
    parsed_as nt parent node = parsedAsSpec nt parent node ∧
    yNode.kind = "identifier" ∧
    (parsed_as ntS4 (some letDeclNode) yNode).map (List.map SubtypeRec.ty) =
      some ["_expression"] :=
  ⟨parsedAs_eq_spec nt parent node h, rfl, by decide⟩

/-- Witness for `c8_parsed_as` at the S4 schema (whose children table is
empty, so the hypothesis holds vacuously). -/
theorem c8_parsed_as_witness :
    parsed_as ntS4 (some letDeclNode) yNode =
      parsedAsSpec ntS4 (some letDeclNode) yNode :=
  (c8_parsed_as ntS4 (some letDeclNode) yNode
    (by intro k hk; simp [ntS4, keysOfList] at hk)).1

/-! ## Keys and bags of the closure loop -/

theorem isKey_bagExtend (m : BranchMap) (k : String) (e : List Bytes)
    (j : String) :
    isKey (bagExtend m k e) j ↔ (isKey m j ∨ j = k) := by
  induction m with
  | nil => simp [bagExtend, isKey, keysOfList]
  | cons p rest ih =>
    obtain ⟨k0, bag⟩ := p
    by_cases hk : k0 = k
    · subst hk
      have h1 : bagExtend ((k0, bag) :: rest) k0 e = (k0, bag ++ e) :: rest := by
        simp [bagExtend]
      rw [h1]
      simp only [isKey, keysOfList, List.map_cons, List.mem_cons]
      constructor
      · rintro (h | h)
        · exact Or.inr h
        · exact Or.inl (Or.inr h)
      · rintro ((h | h) | h)
        · exact Or.inl h
        · exact Or.inr h
        · exact Or.inl h
    · have h1 : bagExtend ((k0, bag) :: rest) k e =
          (k0, bag) :: bagExtend rest k e := by
        simp [bagExtend, hk]
      rw [h1]
      simp only [isKey, keysOfList, List.map_cons, List.mem_cons] at ih ⊢
      constructor
      · rintro (h | h)
        · exact Or.inl (Or.inl h)
        · rcases ih.mp h with h' | h'
          · exact Or.inl (Or.inr h')
          · exact Or.inr h'
      · rintro ((h | h) | h)
        · exact Or.inl h
        · exact Or.inr (ih.mpr (Or.inl h))
        · exact Or.inr (ih.mpr (Or.inr h))

theorem bagOf_bagExtend_self (m : BranchMap) (k : String) (e : List Bytes) :
    bagOf (bagExtend m k e) k = bagOf m k ++ e := by
  induction m with
  | nil => simp [bagExtend, bagOf, assocFind]
  | cons p rest ih =>
    obtain ⟨k0, bag⟩ := p
    by_cases hk : k0 = k
    · subst hk
      have h1 : bagExtend ((k0, bag) :: rest) k0 e = (k0, bag ++ e) :: rest := by
        simp [bagExtend]
      rw [h1]
      simp [bagOf, assocFind]
    · have h1 : bagExtend ((k0, bag) :: rest) k e =
          (k0, bag) :: bagExtend rest k e := by
        simp [bagExtend, hk]
      rw [h1]
      show bagOf ((k0, bag) :: bagExtend rest k e) k = _
      simp only [bagOf, assocFind, if_neg hk]
      exact ih

theorem bagOf_bagExtend_ne (m : BranchMap) (k : String) (e : List Bytes)
    (j : String) (h : j ≠ k) :
    bagOf (bagExtend m k e) j = bagOf m j := by
  have hk : ¬(k = j) := fun hh => h hh.symm
  induction m with
  | nil => simp [bagExtend, bagOf, assocFind, hk]
  | cons p rest ih =>
    obtain ⟨k0, bag⟩ := p
    by_cases hk0 : k0 = k
    · subst hk0
      have h1 : bagExtend ((k0, bag) :: rest) k0 e = (k0, bag ++ e) :: rest := by
        simp [bagExtend]
      rw [h1]
      simp only [bagOf, assocFind, if_neg hk]
    · have h1 : bagExtend ((k0, bag) :: rest) k e =
          (k0, bag) :: bagExtend rest k e := by
        simp [bagExtend, hk0]
      rw [h1]
      by_cases hk0j : k0 = j
      · subst hk0j
        simp [bagOf, assocFind]
      · show bagOf ((k0, bag) :: bagExtend rest k e) j = _
        simp only [bagOf, assocFind, if_neg hk0j]
        exact ih

theorem descStep_res_key (kind : String) (vis : List String)
    (acc : List String × List Bytes × BranchMap) (d : String) (j : String) :
    isKey (descStep kind vis acc d).2.2 j ↔
      (isKey acc.2.2 j ∨ (j = kind ∧ d ≠ kind)) := by
  obtain ⟨q, eta, res⟩ := acc
  by_cases hd : d = kind
  · subst hd
    simp [descStep]
  · simp only [descStep, if_neg hd, isKey_bagExtend]
    tauto

theorem descFold_key (kind : String) (vis : List String) (l : List String)
    (acc : List String × List Bytes × BranchMap) (j : String) :
    isKey ((l.foldl (descStep kind vis) acc)).2.2 j ↔
      (isKey acc.2.2 j ∨ (j = kind ∧ ∃ d ∈ l, d ≠ kind)) := by
  induction l generalizing acc with
  | nil => simp
  | cons d rest ih =>
    rw [List.foldl_cons, ih, descStep_res_key]
    simp only [List.exists_mem_cons_iff]
    tauto

theorem closureGo_nil_queue (nt : NodeTypes) (kind : String) (fuel : Nat)
    (vis : List String) (res : BranchMap) :
    closureGo nt kind fuel [] vis res = res := by
  cases fuel <;> simp [closureGo]

theorem closureGo_key_mono (nt : NodeTypes) (kind : String) :
    ∀ (fuel : Nat) (q vis : List String) (res : BranchMap) (j : String),
      isKey res j → isKey (closureGo nt kind fuel q vis res) j := by
  intro fuel
  induction fuel with
  | zero => intro q vis res j hj; simpa [closureGo] using hj
  | succ f ih =>
    intro q vis res j hj
    cases q with
    | nil => simpa [closureGo_nil_queue] using hj
    | cons current q' =>
      simp only [closureGo]
      by_cases hcv : current ∈ vis
      · rw [if_pos hcv]
        exact ih q' vis res j hj
      · rw [if_neg hcv]
        cases hs : nt.getSubtypes current with
        | none => exact ih q' (current :: vis) res j hj
        | some descendants =>
          apply ih
          rw [descFold_key]
          exact Or.inl hj

theorem closureGo_key_sub (nt : NodeTypes) (kind : String) :
    ∀ (fuel : Nat) (q vis : List String) (res : BranchMap) (j : String),
      isKey (closureGo nt kind fuel q vis res) j → isKey res j ∨ j = kind := by
  intro fuel
  induction fuel with
  | zero => intro q vis res j hj; simp [closureGo] at hj; exact Or.inl hj
  | succ f ih =>
    intro q vis res j hj
    cases q with
    | nil =>
      rw [closureGo_nil_queue] at hj
      exact Or.inl hj
    | cons current q' =>
      simp only [closureGo] at hj
      by_cases hcv : current ∈ vis
      · rw [if_pos hcv] at hj
        exact ih q' vis res j hj
      · rw [if_neg hcv] at hj
        cases hs : nt.getSubtypes current with
        | none =>
          rw [hs] at hj
          exact ih q' (current :: vis) res j hj
        | some descendants =>
          rw [hs] at hj
          rcases ih _ _ _ _ hj with hj' | hj'
          · rw [descFold_key] at hj'
            rcases hj' with hj' | hj'
            · exact Or.inl hj'
            · exact Or.inr hj'.1
          · exact Or.inr hj'

theorem descFold_id (kind : String) (vis : List String) (l : List String)
    (acc : List String × List Bytes × BranchMap) (hvis : kind ∈ vis)
    (hall : ∀ d ∈ l, d = kind) :
    l.foldl (descStep kind vis) acc = acc := by
  induction l with
  | nil => rfl
  | cons d rest ih =>
    have hd : d = kind := hall d (List.mem_cons_self d rest)
    subst hd
    rw [List.foldl_cons]
    have hstep : descStep d vis acc d = acc := by
      obtain ⟨q, eta, res⟩ := acc
      simp [descStep, hvis]
    rw [hstep]
    exact ih (fun d' hd' => hall d' (List.mem_cons_of_mem _ hd'))

theorem closureGo_trivial (nt : NodeTypes) (kind : String) (fuel : Nat)
    (res : BranchMap)
    (h : nt.getSubtypes kind = none ∨
      ∃ la, nt.getSubtypes kind = some la ∧ ∀ d ∈ la, d = kind) :
    closureGo nt kind fuel [kind] [] res = res := by
  cases fuel with
  | zero => rfl
  | succ f =>
    simp only [closureGo]
    rw [if_neg (List.not_mem_nil kind)]
    cases hs : nt.getSubtypes kind with
    | none => exact closureGo_nil_queue ..
    | some la =>
      rcases h with h | ⟨la', hla', hall⟩
      · rw [h] at hs; cases hs
      · rw [hla'] at hs
        injection hs with hs'
        subst hs'
        show closureGo nt kind f
            (List.foldl (descStep kind [kind]) ([], [], res) la').1 [kind]
            (List.foldl (descStep kind [kind]) ([], [], res) la').2.2 = res
        rw [descFold_id kind [kind] la' ([], [], res)
          (List.mem_cons_self kind []) hall]
        exact closureGo_nil_queue ..

theorem closureGo_key_create (nt : NodeTypes) (kind : String) (fuel : Nat)
    (res : BranchMap) (la : List String) (hf : 1 ≤ fuel)
    (hs : nt.getSubtypes kind = some la) (hd : ∃ d ∈ la, d ≠ kind) :
    isKey (closureGo nt kind fuel [kind] [] res) kind := by
  obtain ⟨f, rfl⟩ : ∃ f, fuel = f + 1 := ⟨fuel - 1, by omega⟩
  simp only [closureGo]
  rw [if_neg (List.not_mem_nil kind)]
  cases hs2 : nt.getSubtypes kind with
  | none => rw [hs] at hs2; cases hs2
  | some la2 =>
    rw [hs] at hs2
    injection hs2 with heq
    subst heq
    apply closureGo_key_mono
    rw [descFold_key]
    exact Or.inr ⟨rfl, hd⟩

theorem closeBranches_key_mono (nt : NodeTypes) (order : List String)
    (fuel : Nat) :
    ∀ (res : BranchMap) (j : String),
      isKey res j → isKey (closeBranches nt order fuel res) j := by
  induction order with
  | nil => intro res j hj; exact hj
  | cons kind rest ih =>
    intro res j hj
    exact ih _ j (closureGo_key_mono nt kind fuel [kind] [] res j hj)

theorem closeBranches_key_sub (nt : NodeTypes) (order : List String)
    (fuel : Nat) :
    ∀ (res : BranchMap) (j : String),
      isKey (closeBranches nt order fuel res) j → isKey res j ∨ j ∈ order := by
  induction order with
  | nil => intro res j hj; exact Or.inl hj
  | cons kind rest ih =>
    intro res j hj
    rcases ih _ j hj with hj' | hj'
    · rcases closureGo_key_sub nt kind fuel [kind] [] res j hj' with h | h
      · exact Or.inl h
      · exact Or.inr (h ▸ List.mem_cons_self kind rest)
    · exact Or.inr (List.mem_cons_of_mem _ hj')

theorem closeBranches_key_create (nt : NodeTypes) (order : List String)
    (fuel : Nat) :
    ∀ (res : BranchMap) (k : String) (la : List String), k ∈ order →
      1 ≤ fuel → nt.getSubtypes k = some la → (∃ d ∈ la, d ≠ k) →
      isKey (closeBranches nt order fuel res) k := by
  induction order with
  | nil => intro res k la hk; cases hk
  | cons kind rest ih =>
    intro res k la hk hf hs hd
    rcases List.mem_cons.mp hk with hk' | hk'
    · subst hk'
      exact closeBranches_key_mono nt rest fuel _ k
        (closureGo_key_create nt k fuel res la hf hs hd)
    · exact ih _ k la hk' hf hs hd

theorem closeBranches_key_preserve_not (nt : NodeTypes) (order : List String)
    (fuel : Nat) :
    ∀ (res : BranchMap) (k : String), ¬ isKey res k →
      (nt.getSubtypes k = none ∨
        ∃ la, nt.getSubtypes k = some la ∧ ∀ d ∈ la, d = k) →
      ¬ isKey (closeBranches nt order fuel res) k := by
  induction order with
  | nil => intro res k hnot _ h; exact hnot h
  | cons kind rest ih =>
    intro res k hnot htriv
    by_cases hkk : kind = k
    · subst hkk
      rw [show closeBranches nt (kind :: rest) fuel res =
          closeBranches nt rest fuel (closureGo nt kind fuel [kind] [] res)
        from rfl]
      rw [closureGo_trivial nt kind fuel res htriv]
      exact ih res kind hnot htriv
    · intro hkey
      apply ih (closureGo nt kind fuel [kind] [] res) k ?_ htriv hkey
      intro hkey'
      rcases closureGo_key_sub nt kind fuel [kind] [] res k hkey' with h | h
      · exact hnot h
      · exact hkk h.symm

/-- The fuel of `Branches.new` is positive. -/
theorem branchesFuel_pos (nt : NodeTypes) : 1 ≤ branchesFuel nt := by
  unfold branchesFuel
  exact Nat.one_le_iff_ne_zero.mpr (Nat.mul_ne_zero (by omega) (by omega))

/-- The amended C6: a kind is a key of the constructed Branch Index exactly
when it appears in the corpus, or it is listed in the corpus/children/fields
kind set and its transitive subtype list contains some kind other than
itself (the closure loop's `continue` skips the entry creation for a kind
whose subtype list is trivial). -/
theorem c6_amended_keys_characterization (trees : List (Bytes × TSNode))
    (nt : NodeTypes) (k : String) :
    isKey (Branches.new trees nt) k ↔
      (isKey (corpusIndex trees) k ∨
       (k ∈ keysOfList (corpusIndex trees) ++ keysOfList nt.children ++
          keysOfList nt.fields ∧
        ∃ la, nt.getSubtypes k = some la ∧ ∃ d ∈ la, d ≠ k)) := by
  have hfuel := branchesFuel_pos nt
  simp only [Branches.new]
  constructor
  · intro hkey
    rcases closeBranches_key_sub nt _ _ _ k hkey with h | h
    · exact Or.inl h
    · have hmem := List.mem_dedup.mp h
      by_cases h0 : isKey (corpusIndex trees) k
      · exact Or.inl h0
      · refine Or.inr ⟨hmem, ?_⟩
        by_contra hno
        push_neg at hno
        have htriv : nt.getSubtypes k = none ∨
            ∃ la, nt.getSubtypes k = some la ∧ ∀ d ∈ la, d = k := by
          cases hfind : nt.getSubtypes k with
          | none => exact Or.inl rfl
          | some la => exact Or.inr ⟨la, rfl, hno la hfind⟩
        exact closeBranches_key_preserve_not nt _ _ _ k h0 htriv hkey
  · intro h
    rcases h with h | ⟨hmem, la, hla, hd⟩
    · exact closeBranches_key_mono nt _ _ _ k h
    · exact closeBranches_key_create nt _ _ _ k la
        (List.mem_dedup.mpr hmem) hfuel hla hd

/-! ## C3: bag monotonicity and coverage through the closure -/

theorem descStep_bag_mono (kind : String) (vis : List String)
    (acc : List String × List Bytes × BranchMap) (d : String) (j : String)
    {s : Bytes} (h : s ∈ bagOf acc.2.2 j) :
    s ∈ bagOf (descStep kind vis acc d).2.2 j := by
  obtain ⟨q, eta, res⟩ := acc
  by_cases hd : d = kind
  · subst hd
    simpa [descStep] using h
  · simp only [descStep, if_neg hd]
    by_cases hj : j = kind
    · subst hj
      rw [bagOf_bagExtend_self]
      exact List.mem_append_left _ h
    · rw [bagOf_bagExtend_ne _ _ _ _ hj]
      exact h

theorem descStep_bag_ne (kind : String) (vis : List String)
    (acc : List String × List Bytes × BranchMap) (d : String) (j : String)
    (hj : j ≠ kind) :
    bagOf (descStep kind vis acc d).2.2 j = bagOf acc.2.2 j := by
  obtain ⟨q, eta, res⟩ := acc
  by_cases hd : d = kind
  · subst hd
    simp [descStep]
  · simp only [descStep, if_neg hd]
    exact bagOf_bagExtend_ne _ _ _ _ hj

theorem descFold_bag_mono (kind : String) (vis : List String)
    (l : List String) (acc : List String × List Bytes × BranchMap)
    (j : String) {s : Bytes} (h : s ∈ bagOf acc.2.2 j) :
    s ∈ bagOf ((l.foldl (descStep kind vis) acc)).2.2 j := by
  induction l generalizing acc with
  | nil => exact h
  | cons d rest ih =>
    rw [List.foldl_cons]
    exact ih _ (descStep_bag_mono kind vis acc d j h)

theorem descFold_coverage (kind : String) (vis : List String)
    (l : List String) (acc : List String × List Bytes × BranchMap)
    (d : String) (hd : d ∈ l) (hdk : d ≠ kind) {s : Bytes}
    (h : s ∈ bagOf acc.2.2 d) :
    s ∈ bagOf ((l.foldl (descStep kind vis) acc)).2.2 kind := by
  induction l generalizing acc with
  | nil => cases hd
  | cons d0 rest ih =>
    rw [List.foldl_cons]
    rcases List.mem_cons.mp hd with rfl | hd'
    · apply descFold_bag_mono
      obtain ⟨q, eta, res⟩ := acc
      simp only [descStep, if_neg hdk]
      rw [bagOf_bagExtend_self]
      refine List.mem_append_right _ (List.mem_append_right _ h)
    · apply ih _ hd'
      rw [descStep_bag_ne kind vis acc d0 d hdk]
      exact h

theorem closureGo_bag_mono (nt : NodeTypes) (kind : String) :
    ∀ (fuel : Nat) (q vis : List String) (res : BranchMap) (j : String)
      {s : Bytes}, s ∈ bagOf res j →
      s ∈ bagOf (closureGo nt kind fuel q vis res) j := by
  intro fuel
  induction fuel with
  | zero => intro q vis res j s h; simpa [closureGo] using h
  | succ f ih =>
    intro q vis res j s h
    cases q with
    | nil => simpa [closureGo_nil_queue] using h
    | cons current q' =>
      simp only [closureGo]
      by_cases hcv : current ∈ vis
      · rw [if_pos hcv]
        exact ih q' vis res j h
      · rw [if_neg hcv]
        cases hs : nt.getSubtypes current with
        | none => exact ih q' (current :: vis) res j h
        | some descendants =>
          exact ih _ _ _ j (descFold_bag_mono kind (current :: vis)
            descendants (q', [], res) j h)

theorem closeBranches_bag_mono (nt : NodeTypes) (order : List String)
    (fuel : Nat) :
    ∀ (res : BranchMap) (j : String) {s : Bytes}, s ∈ bagOf res j →
      s ∈ bagOf (closeBranches nt order fuel res) j := by
  induction order with
  | nil => intro res j s h; exact h
  | cons kind rest ih =>
    intro res j s h
    exact ih _ j (closureGo_bag_mono nt kind fuel [kind] [] res j h)

theorem closureGo_coverage (nt : NodeTypes) (kind : String) (fuel : Nat)
    (res : BranchMap) (la : List String) (hf : 1 ≤ fuel)
    (hs : nt.getSubtypes kind = some la) (d : String) (hd : d ∈ la)
    (hdk : d ≠ kind) {s : Bytes} (h : s ∈ bagOf res d) :
    s ∈ bagOf (closureGo nt kind fuel [kind] [] res) kind := by
  obtain ⟨f, rfl⟩ : ∃ f, fuel = f + 1 := ⟨fuel - 1, by omega⟩
  simp only [closureGo]
  rw [if_neg (List.not_mem_nil kind)]
  cases hs2 : nt.getSubtypes kind with
  | none => rw [hs] at hs2; cases hs2
  | some la2 =>
    rw [hs] at hs2
    injection hs2 with heq
    subst heq
    apply closureGo_bag_mono
    exact descFold_coverage kind [kind] la ([], [], res) d hd hdk h

theorem closeBranches_coverage (nt : NodeTypes) (order : List String)
    (fuel : Nat) :
    ∀ (res : BranchMap) (K : String) (la : List String), K ∈ order →
      1 ≤ fuel → nt.getSubtypes K = some la →
      ∀ d ∈ la, d ≠ K → ∀ {s : Bytes}, s ∈ bagOf res d →
      s ∈ bagOf (closeBranches nt order fuel res) K := by
  induction order with
  | nil => intro res K la hK; cases hK
  | cons kind rest ih =>
    intro res K la hK hf hs d hd hdk s h
    by_cases hkk : kind = K
    · subst hkk
      exact closeBranches_bag_mono nt rest fuel _ kind
        (closureGo_coverage nt kind fuel res la hf hs d hd hdk h)
    · rcases List.mem_cons.mp hK with h' | h'
      · exact absurd h'.symm hkk
      · exact ih _ K la h' hf hs d hd hdk
          (closureGo_bag_mono nt kind fuel [kind] [] res d h)

/-! ## C3: the origin invariant -/

theorem originInv_self (res0 : BranchMap) (st : List (String × List String)) :
    OriginInv res0 st res0 :=
  fun j _s h => ⟨j, h, Or.inl rfl⟩

theorem stTrans_of_bounded (st : List (String × List String))
    (h : ∀ p ∈ st, ∀ b ∈ p.2, ∀ x ∈ (assocFind st b).getD [], x ∈ p.2) :
    StTrans st := by
  intro a la hla b hb lb hlb x hx
  have hp := assocFind_mem hla
  exact h (a, la) hp b hb x (by rw [hlb]; exact hx)

theorem descStep_queue (kind : String) (vis : List String)
    (acc : List String × List Bytes × BranchMap) (d : String) :
    (descStep kind vis acc d).1 = if d ∈ vis then acc.1 else d :: acc.1 := by
  obtain ⟨q, eta, res⟩ := acc
  by_cases hdk : d = kind <;> by_cases hdv : d ∈ vis <;>
    simp [descStep, hdk, hdv]

theorem descFold_queue_sub (kind : String) (vis : List String) :
    ∀ (l : List String) (acc : List String × List Bytes × BranchMap)
      (x : String), x ∈ ((l.foldl (descStep kind vis) acc)).1 →
      x ∈ acc.1 ∨ x ∈ l := by
  intro l
  induction l with
  | nil => intro acc x h; exact Or.inl h
  | cons d rest ih =>
    intro acc x h
    rw [List.foldl_cons] at h
    rcases ih _ x h with h' | h'
    · rw [descStep_queue] at h'
      by_cases hdv : d ∈ vis
      · rw [if_pos hdv] at h'
        exact Or.inl h'
      · rw [if_neg hdv] at h'
        rcases List.mem_cons.mp h' with rfl | h''
        · exact Or.inr (List.mem_cons_self ..)
        · exact Or.inl h''
    · exact Or.inr (List.mem_cons_of_mem _ h')

theorem descStep_origin (res0 : BranchMap) (st : List (String × List String))
    (kind : String) (vis : List String) (laK : List String)
    (hT : StTrans st) (hlaK : assocFind st kind = some laK)
    (acc : List String × List Bytes × BranchMap) (d : String)
    (hd : d = kind ∨ d ∈ laK) (hInv : OriginInv res0 st acc.2.2)
    (hEta : ∀ s ∈ acc.2.1,
      ∃ k2, s ∈ bagOf res0 k2 ∧ (k2 = kind ∨ k2 ∈ laK)) :
    OriginInv res0 st (descStep kind vis acc d).2.2 ∧
    (∀ s ∈ (descStep kind vis acc d).2.1,
      ∃ k2, s ∈ bagOf res0 k2 ∧ (k2 = kind ∨ k2 ∈ laK)) := by
  obtain ⟨q, eta, res⟩ := acc
  by_cases hdk : d = kind
  · subst hdk
    constructor
    · simpa [descStep] using hInv
    · simpa [descStep] using hEta
  · have hdla : d ∈ laK := hd.resolve_left hdk
    simp only [descStep, if_neg hdk]
    have hEta' : ∀ s ∈ eta ++ bagOf res d,
        ∃ k2, s ∈ bagOf res0 k2 ∧ (k2 = kind ∨ k2 ∈ laK) := by
      intro s hs
      rcases List.mem_append.mp hs with hs | hs
      · exact hEta s hs
      · obtain ⟨k2, hk2, hor⟩ := hInv d s hs
        refine ⟨k2, hk2, ?_⟩
        rcases hor with rfl | ⟨lj, hlj, hk2lj⟩
        · exact Or.inr hdla
        · exact Or.inr (hT kind laK hlaK d hdla lj hlj k2 hk2lj)
    refine ⟨?_, hEta'⟩
    intro j s hs
    by_cases hj : j = kind
    · subst hj
      rw [bagOf_bagExtend_self] at hs
      rcases List.mem_append.mp hs with hs | hs
      · exact hInv j s hs
      · obtain ⟨k2, hk2, hor⟩ := hEta' s hs
        refine ⟨k2, hk2, ?_⟩
        rcases hor with rfl | h2
        · exact Or.inl rfl
        · exact Or.inr ⟨laK, hlaK, h2⟩
    · rw [bagOf_bagExtend_ne _ _ _ _ hj] at hs
      exact hInv j s hs

theorem descFold_origin (res0 : BranchMap) (st : List (String × List String))
    (kind : String) (vis : List String) (laK : List String)
    (hT : StTrans st) (hlaK : assocFind st kind = some laK) :
    ∀ (l : List String) (acc : List String × List Bytes × BranchMap),
      (∀ d ∈ l, d = kind ∨ d ∈ laK) → OriginInv res0 st acc.2.2 →
      (∀ s ∈ acc.2.1,
        ∃ k2, s ∈ bagOf res0 k2 ∧ (k2 = kind ∨ k2 ∈ laK)) →
      OriginInv res0 st ((l.foldl (descStep kind vis) acc)).2.2 := by
  intro l
  induction l with
  | nil => intro acc _ hInv _; exact hInv
  | cons d rest ih =>
    intro acc hall hInv hEta
    rw [List.foldl_cons]
    obtain ⟨hInv', hEta'⟩ := descStep_origin res0 st kind vis laK hT hlaK acc d
      (hall d (List.mem_cons_self d rest)) hInv hEta
    exact ih _ (fun d' hd' => hall d' (List.mem_cons_of_mem _ hd')) hInv' hEta'

theorem closureGo_origin (nt : NodeTypes) (kind : String) (res0 : BranchMap)
    (hT : StTrans nt.subtypes) :
    ∀ (fuel : Nat) (q vis : List String) (res : BranchMap),
      (∀ x ∈ q, x = kind ∨
        ∃ laK, assocFind nt.subtypes kind = some laK ∧ x ∈ laK) →
      OriginInv res0 nt.subtypes res →
      OriginInv res0 nt.subtypes (closureGo nt kind fuel q vis res) := by
  intro fuel
  induction fuel with
  | zero => intro q vis res _ hInv; simpa [closureGo] using hInv
  | succ f ih =>
    intro q vis res hQ hInv
    cases q with
    | nil => simpa [closureGo_nil_queue] using hInv
    | cons current q' =>
      have hQ' : ∀ x ∈ q', x = kind ∨
          ∃ laK, assocFind nt.subtypes kind = some laK ∧ x ∈ laK :=
        fun x hx => hQ x (List.mem_cons_of_mem _ hx)
      simp only [closureGo]
      by_cases hcv : current ∈ vis
      · rw [if_pos hcv]
        exact ih q' vis res hQ' hInv
      · rw [if_neg hcv]
        cases hs : nt.getSubtypes current with
        | none => exact ih q' (current :: vis) res hQ' hInv
        | some descendants =>
          have hsA : assocFind nt.subtypes current = some descendants := hs
          rcases hQ current (List.mem_cons_self ..) with hcur |
            ⟨laK, hlaK, hcurla⟩
          · subst hcur
            apply ih
            · intro x hx
              rcases descFold_queue_sub current (current :: vis) descendants
                  (q', [], res) x hx with hx' | hx'
              · exact hQ' x hx'
              · exact Or.inr ⟨descendants, hsA, hx'⟩
            · exact descFold_origin res0 nt.subtypes current (current :: vis)
                descendants hT hsA descendants (q', [], res)
                (fun d hd => Or.inr hd) hInv
                (by intro s hs'; exact absurd hs' (List.not_mem_nil s))
          · have hall : ∀ d ∈ descendants, d = kind ∨ d ∈ laK := by
              intro d hd
              exact Or.inr (hT kind laK hlaK current hcurla descendants hsA d hd)
            apply ih
            · intro x hx
              rcases descFold_queue_sub kind (current :: vis) descendants
                  (q', [], res) x hx with hx' | hx'
              · exact hQ' x hx'
              · rcases hall x hx' with rfl | hxla
                · exact Or.inl rfl
                · exact Or.inr ⟨laK, hlaK, hxla⟩
            · exact descFold_origin res0 nt.subtypes kind (current :: vis) laK
                hT hlaK descendants (q', [], res) hall hInv
                (by intro s hs'; exact absurd hs' (List.not_mem_nil s))

theorem closeBranches_origin (nt : NodeTypes) (order : List String)
    (fuel : Nat) (res0 : BranchMap) (hT : StTrans nt.subtypes) :
    ∀ (res : BranchMap), OriginInv res0 nt.subtypes res →
      OriginInv res0 nt.subtypes (closeBranches nt order fuel res) := by
  induction order with
  | nil => intro res h; exact h
  | cons kind rest ih =>
    intro res h
    apply ih
    apply closureGo_origin nt kind res0 hT fuel [kind] [] res
    · intro x hx
      rcases List.mem_cons.mp hx with rfl | hx'
      · exact Or.inl rfl
      · exact absurd hx' (List.not_mem_nil x)
    · exact h

/-- **C3.** After `Branches::new`, for every key `K` of the index and every
`K'` in `subtypes(K)` other than `K` itself, every slice in the bag at `K'`
is also in the bag at `K`, provided the subtypes table is transitively
closed (which the recursive `subtypes` helper guarantees by inlining each
subtype's own transitive list). -/
theorem c3_subtype_closure (trees : List (Bytes × TSNode)) (nt : NodeTypes)
    (hTrans : ∀ p ∈ nt.subtypes, ∀ b ∈ p.2,
      ∀ x ∈ (assocFind nt.subtypes b).getD [], x ∈ p.2)
    (K : String) (hK : isKey (Branches.new trees nt) K)
    (la : List String) (hla : nt.getSubtypes K = some la)
    (K' : String) (hK' : K' ∈ la) (hne : K' ≠ K)
    (s : Bytes) (hs : s ∈ bagOf (Branches.new trees nt) K') :
    s ∈ bagOf (Branches.new trees nt) K := by
  have hT := stTrans_of_bounded nt.subtypes hTrans
  have hfuel := branchesFuel_pos nt
  have hlaA : assocFind nt.subtypes K = some la := hla
  simp only [Branches.new] at hK hs ⊢
  have hKorder : K ∈ (keysOfList (corpusIndex trees) ++
      keysOfList nt.children ++ keysOfList nt.fields).dedup := by
    rcases closeBranches_key_sub nt _ _ _ K hK with h | h
    · exact List.mem_dedup.mpr
        (List.mem_append_left _ (List.mem_append_left _ h))
    · exact h
  obtain ⟨k2, hk2bag, hor⟩ := closeBranches_origin nt _ _ (corpusIndex trees)
    hT (corpusIndex trees) (originInv_self _ _) K' s hs
  have hk2la : k2 ∈ la := by
    rcases hor with rfl | ⟨lj, hlj, hk2lj⟩
    · exact hK'
    · exact hT K la hlaA K' hK' lj hlj k2 hk2lj
  by_cases hk2K : k2 = K
  · subst hk2K
    exact closeBranches_bag_mono nt _ _ _ k2 hk2bag
  · exact closeBranches_coverage nt _ _ (corpusIndex trees) K la hKorder
      hfuel hla k2 hk2la hk2K hk2bag

/-- Witness for `c3_subtype_closure` at a concrete corpus and schema:
the corpus slice at kind `b` is present in the bag at the supertype `a`. -/
theorem c3_subtype_closure_witness :
    ([7] : Bytes) ∈ bagOf (Branches.new trees3 nt3) "a" :=
  c3_subtype_closure trees3 nt3 (by decide) "a" (by decide) ["a", "b"]
    (by decide) "b" (by decide) (by decide) [7] (by decide)

/-! ## C2: the tracked-size bound -/

theorem le_foldr_max (l : List Nat) (x : Nat) (h : x ∈ l) :
    x ≤ l.foldr max 0 := by
  induction l with
  | nil => cases h
  | cons a t ih =>
    rw [List.foldr_cons]
    rcases List.mem_cons.mp h with rfl | h'
    · exact le_max_left _ _
    · exact le_trans (ih h') (le_max_right _ _)

theorem maxBagLen_bound {m : BranchMap} {k : String} {s : Bytes}
    (h : s ∈ bagOf m k) : s.length ≤ maxBagLen m := by
  unfold maxBagLen
  apply le_foldr_max
  unfold bagOf at h
  cases hf : assocFind m k with
  | none =>
    rw [hf] at h
    exact absurd h (List.not_mem_nil s)
  | some bag =>
    rw [hf] at h
    rw [List.mem_flatten]
    refine ⟨bag.map List.length, ?_, List.mem_map_of_mem List.length h⟩
    exact List.mem_map_of_mem (fun p => p.2.map List.length) (assocFind_mem hf)

theorem splice_candidates_sub (rng : Rng) (kinds : List String)
    (branches : BranchMap) (nt : NodeTypes) (chaotic : Bool)
    (np : TSNode × Option TSNode) :
    (splice_candidates rng kinds branches nt chaotic np).1 = [] ∨
    ∃ k, (splice_candidates rng kinds branches nt chaotic np).1 =
      bagOf branches k := by
  unfold splice_candidates
  split
  · split
    · exact Or.inr ⟨_, rfl⟩
    · exact Or.inl rfl
  · split
    · split
      · exact Or.inr ⟨_, rfl⟩
      · split
        · exact Or.inr ⟨_, rfl⟩
        · exact Or.inl rfl
    · exact Or.inr ⟨_, rfl⟩

theorem spliceLoop2_zero (cands : List Bytes) (t : Bytes) (rng : Rng) :
    spliceLoop2 cands t 0 rng =
      match chooseL rng cands with
      | none => (none, rng)
      | some (cand, rng1) =>
        if cand ≠ t then (some cand, rng1) else (some cand, rng1) := by
  conv_lhs => rw [spliceLoop2]

theorem spliceLoop2_succ (cands : List Bytes) (t : Bytes) (c' : Nat)
    (rng : Rng) :
    spliceLoop2 cands t (c' + 1) rng =
      match chooseL rng cands with
      | none => (none, rng)
      | some (cand, rng1) =>
        if cand ≠ t then (some cand, rng1)
        else spliceLoop2 cands t c' rng1 := by
  conv_lhs => rw [spliceLoop2]

theorem spliceLoop2_mem :
    ∀ (c : Nat) (cands : List Bytes) (nodeText : Bytes) (rng : Rng)
      (cand : Bytes), (spliceLoop2 cands nodeText c rng).1 = some cand →
      cand ∈ cands := by
  intro c
  induction c with
  | zero =>
    intro cands t rng cand h
    rw [spliceLoop2_zero] at h
    cases hc : chooseL rng cands with
    | none => simp only [hc] at h; cases h
    | some p =>
      obtain ⟨cand0, rng1⟩ := p
      simp only [hc] at h
      split at h <;>
        · simp only at h
          injection h with h'
          exact h' ▸ chooseL_mem hc
  | succ c' ih =>
    intro cands t rng cand h
    rw [spliceLoop2_succ] at h
    cases hc : chooseL rng cands with
    | none => simp only [hc] at h; cases h
    | some p =>
      obtain ⟨cand0, rng1⟩ := p
      simp only [hc] at h
      split at h
      · simp only at h
        injection h with h'
        exact h' ▸ chooseL_mem hc
      · exact ih cands t rng1 cand h

theorem spliceLoop1_zero (kinds : List String) (branches : BranchMap)
    (nt : NodeTypes) (chaotic : Bool)
    (nodes : List (TSNode × Option TSNode)) (rng : Rng) :
    spliceLoop1 kinds branches nt chaotic nodes 0 rng =
      match chooseL rng nodes with
      | none => (none, rng)
      | some (np, rng1) =>
        if (splice_candidates rng1 kinds branches nt chaotic np).1.length > 1
        then (some (np, (splice_candidates rng1 kinds branches nt chaotic np).1),
          (splice_candidates rng1 kinds branches nt chaotic np).2)
        else (none, (splice_candidates rng1 kinds branches nt chaotic np).2) := by
  conv_lhs => rw [spliceLoop1]

theorem spliceLoop1_succ (kinds : List String) (branches : BranchMap)
    (nt : NodeTypes) (chaotic : Bool)
    (nodes : List (TSNode × Option TSNode)) (c' : Nat) (rng : Rng) :
    spliceLoop1 kinds branches nt chaotic nodes (c' + 1) rng =
      match chooseL rng nodes with
      | none => (none, rng)
      | some (np, rng1) =>
        if (splice_candidates rng1 kinds branches nt chaotic np).1.length > 1
        then (some (np, (splice_candidates rng1 kinds branches nt chaotic np).1),
          (splice_candidates rng1 kinds branches nt chaotic np).2)
        else spliceLoop1 kinds branches nt chaotic nodes c'
          (splice_candidates rng1 kinds branches nt chaotic np).2 := by
  conv_lhs => rw [spliceLoop1]

theorem spliceLoop1_bags :
    ∀ (c : Nat) (kinds : List String) (branches : BranchMap)
      (nt : NodeTypes) (chaotic : Bool)
      (nodes : List (TSNode × Option TSNode)) (rng : Rng)
      (np : TSNode × Option TSNode) (cands : List Bytes),
      (spliceLoop1 kinds branches nt chaotic nodes c rng).1 =
        some (np, cands) →
      cands = [] ∨ ∃ k, cands = bagOf branches k := by
  intro c
  induction c with
  | zero =>
    intro kinds branches nt chaotic nodes rng np cands h
    rw [spliceLoop1_zero] at h
    cases hc : chooseL rng nodes with
    | none => simp only [hc] at h; cases h
    | some p =>
      obtain ⟨np0, rng1⟩ := p
      simp only [hc] at h
      split at h
      · simp only at h
        injection h with h'
        have h2 : (splice_candidates rng1 kinds branches nt chaotic np0).1 =
            cands := (Prod.mk.injEq .. ▸ h').2
        exact h2 ▸ splice_candidates_sub rng1 kinds branches nt chaotic np0
      · simp only at h
        cases h
  | succ c' ih =>
    intro kinds branches nt chaotic nodes rng np cands h
    rw [spliceLoop1_succ] at h
    cases hc : chooseL rng nodes with
    | none => simp only [hc] at h; cases h
    | some p =>
      obtain ⟨np0, rng1⟩ := p
      simp only [hc] at h
      split at h
      · simp only at h
        injection h with h'
        have h2 : (splice_candidates rng1 kinds branches nt chaotic np0).1 =
            cands := (Prod.mk.injEq .. ▸ h').2
        exact h2 ▸ splice_candidates_sub rng1 kinds branches nt chaotic np0
      · exact ih kinds branches nt chaotic nodes _ np cands h

theorem delete_node_delta_nonpos {nt : NodeTypes} {chaos : Nat} {rng : Rng}
    {nodes : List (TSNode × Option TSNode)} {id : Nat} {bytes : Bytes}
    {dlt : Int}
    (h : (delete_node nt chaos rng nodes).1 = some (id, bytes, dlt)) :
    dlt ≤ 0 := by
  simp only [delete_node] at h
  split at h
  · cases h
  · split at h
    · simp only [Option.some.injEq, Prod.mk.injEq] at h
      obtain ⟨-, -, h3⟩ := h
      rw [← h3]
      unfold delta
      simp
    · split at h
      · simp only [Option.some.injEq, Prod.mk.injEq] at h
        obtain ⟨-, -, h3⟩ := h
        rw [← h3]
        unfold delta
        simp
      · cases h

theorem splice_delta_le {rng : Rng} {chaos : Nat} {kinds : List String}
    {branches : BranchMap} {text : Bytes}
    {nodes : List (TSNode × Option TSNode)} {nt : NodeTypes} {id : Nat}
    {bytes : Bytes} {dlt : Int}
    (h : (splice rng chaos kinds branches text nodes nt).1 =
      some (id, bytes, dlt)) :
    dlt ≤ (maxBagLen branches : Int) := by
  simp only [splice] at h
  split at h
  · cases h
  · next np cands rng2 heq1 =>
    split at h
    · cases h
    · next cand rng3 heq2 =>
      simp only [Option.some.injEq, Prod.mk.injEq] at h
      obtain ⟨-, -, h3⟩ := h
      have hcands := spliceLoop1_bags 257 kinds branches nt _ nodes _ np cands
        (by rw [heq1])
      have hcand : cand ∈ cands := spliceLoop2_mem 257 cands _ rng2 cand
        (by rw [heq2])
      rcases hcands with rfl | ⟨k, rfl⟩
      · exact absurd hcand (List.not_mem_nil cand)
      · have hlen := maxBagLen_bound hcand
        rw [← h3]
        unfold delta
        omega

theorem spliceIter_cons (ext : Externals) (S : Splicer) (inter : Nat)
    (i : Nat) (rest : List Nat) (st : SpliceSt) :
    spliceIter ext S inter (i :: rest) st =
      (let pr :=
        if (randomRange st.rng 0 100).1 < S.deletions then
          delete_node S.nodeTypes S.chaos (randomRange st.rng 0 100).2 st.nodes
        else if i < S.intraSplices then
          splice (randomRange st.rng 0 100).2 S.chaos S.kinds st.intraBranches
            st.text st.nodes S.nodeTypes
        else
          splice (randomRange st.rng 0 100).2 S.chaos S.kinds S.branches
            st.text st.nodes S.nodeTypes
      match pr.1 with
      | none => spliceIter ext S inter rest { st with rng := pr.2 }
      | some (id, bytes, dlt) =>
        if i % S.reparse = 0 ∨ i + 1 = inter ∨
            S.maxSize ≤ (st.sz + dlt).toNat then
          match ext.renderFn st.tree st.text
              (assocInsertNat st.edits id bytes) with
          | none => none
          | some rendered =>
            if S.maxSize ≤ (st.sz + dlt).toNat then
              some { rng := pr.2
                     text := rendered
                     tree := ext.parseFn rendered
                     nodes := allNodes (ext.parseFn rendered)
                     edits := []
                     sz := st.sz + dlt
                     intraBranches :=
                       if i < S.intraSplices then
                         Branches.new [(rendered, ext.parseFn rendered)]
                           S.nodeTypes
                       else Branches.new [] S.nodeTypes }
            else
              spliceIter ext S inter rest
                { rng := pr.2
                  text := rendered
                  tree := ext.parseFn rendered
                  nodes := allNodes (ext.parseFn rendered)
                  edits := []
                  sz := st.sz + dlt
                  intraBranches :=
                    if i < S.intraSplices then
                      Branches.new [(rendered, ext.parseFn rendered)]
                        S.nodeTypes
                    else Branches.new [] S.nodeTypes }
        else
          spliceIter ext S inter rest
            { st with rng := pr.2
                      edits := assocInsertNat st.edits id bytes
                      sz := st.sz + dlt }) := by
  conv_lhs => rw [spliceIter]

theorem spliceIter_sz_le (ext : Externals) (S : Splicer) (inter : Nat)
    (hintra : S.intraSplices = 0) :
    ∀ (l : List Nat) (st stF : SpliceSt), st.sz ≤ (S.maxSize : Int) →
      spliceIter ext S inter l st = some stF →
      stF.sz ≤ (S.maxSize : Int) + (maxBagLen S.branches : Int) := by
  intro l
  induction l with
  | nil =>
    intro st stF hsz h
    simp only [spliceIter, Option.some.injEq] at h
    subst h
    have : (0 : Int) ≤ (maxBagLen S.branches : Int) := Int.natCast_nonneg _
    omega
  | cons i rest ih =>
    intro st stF hsz h
    rw [spliceIter_cons] at h
    simp only [hintra, Nat.not_lt_zero, if_false] at h
    split at h
    · refine ih _ stF ?_ h
      exact hsz
    · next id bytes dlt heq =>
      have hdlt : dlt ≤ (maxBagLen S.branches : Int) := by
        by_cases hdel : (randomRange st.rng 0 100).1 < S.deletions
        · rw [if_pos hdel] at heq
          have := delete_node_delta_nonpos heq
          have h0 : (0 : Int) ≤ (maxBagLen S.branches : Int) :=
            Int.natCast_nonneg _
          omega
        · rw [if_neg hdel] at heq
          exact splice_delta_le heq
      split at h
      · split at h
        · cases h
        · split at h
          · next hsz2 =>
            simp only [Option.some.injEq] at h
            subst h
            simp only
            omega
          · next hsz2 =>
            have hle : st.sz + dlt ≤ (S.maxSize : Int) := by omega
            exact ih _ stF hle h
      · next hcond =>
        have hsz2 : ¬ S.maxSize ≤ (st.sz + dlt).toNat := fun hc =>
          hcond (Or.inr (Or.inr hc))
        have hle : st.sz + dlt ≤ (S.maxSize : Int) := by omega
        exact ih _ stF hle h

/-- The amended C2: the seed chosen by `next()` never exceeds `max_size`,
and with intra-splicing off the tracked size that drives the early stop
(`sz` in `splice_tree`, the seed length plus all staged deltas) is, on
return, at most `max_size` plus the largest candidate slice of the Branch
Index. The emitted byte length itself is not strictly below
`max_size + largest_candidate` — it can equal it, and with `reparse > 1`
the tracked size can undercount the rendered bytes (see the
counterexample). -/
theorem c2_amended_tracked_size_bound :
    (∀ (ext : Externals) (S : Splicer) (text0 : Bytes) (tree : TSNode)
       (stF : SpliceSt), S.intraSplices = 0 → text0.length ≤ S.maxSize →
       spliceTreeFull ext S text0 tree = some stF →
       stF.sz.toNat ≤ S.maxSize + maxBagLen S.branches)
    ∧ (∀ (fuel : Nat) (trees : List (Bytes × TSNode)) (maxSize : Nat)
       (rng : Rng) (text : Bytes) (tree : TSNode) (rng' : Rng),
       seedPick fuel trees maxSize rng = some (text, tree, rng') →
       text.length ≤ maxSize) := by
  constructor
  · intro ext S text0 tree stF hintra hlen h
    simp only [spliceTreeFull, hintra] at h
    simp only [Nat.zero_le, if_true, Nat.add_zero, Nat.le_refl] at h
    split at h <;> split at h
    · cases h
    · have hbound : stF.sz ≤ (S.maxSize : Int) + (maxBagLen S.branches : Int) := by
        refine spliceIter_sz_le ext S _ hintra _ _ stF ?_ h
        show ((text0.length : Nat) : Int) ≤ (S.maxSize : Int)
        exact_mod_cast hlen
      omega
    · cases h
    · have hbound : stF.sz ≤ (S.maxSize : Int) + (maxBagLen S.branches : Int) := by
        refine spliceIter_sz_le ext S _ hintra _ _ stF ?_ h
        show ((text0.length : Nat) : Int) ≤ (S.maxSize : Int)
        exact_mod_cast hlen
      omega
  · exact fun _ _ _ _ _ _ _ h => seedPick_le h

/-- Witness for `c2_amended_tracked_size_bound`: the concrete size-bound
run ends with a tracked size within the bound. -/
theorem c2_amended_tracked_size_bound_witness :
    ((spliceTreeFull extSize sizeEngine ab zwTree).map
      (fun st => decide (st.sz.toNat ≤
        sizeEngine.maxSize + maxBagLen sizeEngine.branches))).getD true =
      true := by
  cases h : spliceTreeFull extSize sizeEngine ab zwTree with
  | none => rfl
  | some stF =>
    have hb := c2_amended_tracked_size_bound.1 extSize sizeEngine ab zwTree
      stF rfl (by decide) h
    simp only [Option.map_some', Option.getD_some]
    exact decide_eq_true hb
